import Mathlib

/-!
Shallow embedding of the numeric core of `hhpy/ds.py` (the hhpy
repository): quantile binning, grouped root-mean-square difference,
rolling outlier removal, scoring helpers and the Mahalanobis wrapper.

A pandas float value is modelled as `Option ℚ`: `some x` is a finite
value, `none` models a non-finite float (NaN; on every input considered
in the theorems below no infinity arises, so NaN and ±inf are
collapsed into `none`).  A numeric column is a `List (Option ℚ)`.
-/

namespace Hhpy

/-- Float division as numpy performs it on the inputs arising here:
division by zero does not raise but yields a non-finite float. -/
def npDiv (a b : ℚ) : Option ℚ := if b = 0 then none else some (a / b)

/-- The finite (non-NaN) entries of a column, in order (pandas `dropna`). -/
def valids (l : List (Option ℚ)) : List ℚ := l.filterMap id

/-- pandas `Series.sum` with the default `skipna=True`. -/
def osum (l : List (Option ℚ)) : ℚ := (valids l).sum

/-- pandas `Series.count`: the number of finite entries. -/
def ocount (l : List (Option ℚ)) : ℕ := (valids l).length

/-- pandas `Series.mean` (skipna; NaN when no finite entry exists). -/
def omean (l : List (Option ℚ)) : Option ℚ := npDiv (osum l) (ocount l)

/-- pandas sample variance (`ddof = 1`, skipna): NaN when fewer than two
finite entries exist.  The source works with the standard deviation
`√var`; every comparison against it is embedded below in the equivalent
squared form, so the variance is all that is needed. -/
def ovar (l : List (Option ℚ)) : Option ℚ :=
  let v := valids l
  if v.length ≤ 1 then none
  else
    let m : ℚ := v.sum / (v.length : ℚ)
    some ((v.map (fun x => (x - m) ^ 2)).sum / ((v.length : ℚ) - 1))

/-- Banker's rounding to an integer (`np.round` rounds half to even). -/
def roundHalfEven (x : ℚ) : ℤ :=
  let n := ⌊x⌋
  let f := x - n
  if f < 1/2 then n
  else if 1/2 < f then n + 1
  else if 2 ∣ n then n else n + 1

/-- Position of the leading significant digit of a rational `1 ≤ x` or
`0 < x < 1`: the unique `e` with `10 ^ e ≤ x < 10 ^ (e + 1)`. -/
def log10floor (x : ℚ) : ℤ :=
  if 1 ≤ x then (Nat.log 10 ⌊x⌋.toNat : ℤ)
  else -(Nat.clog 10 ⌈x⁻¹⌉.toNat : ℤ)

/-- Modelled from the spec: `round_signif` is imported from `hhpy.main`,
a module of this repository that is not among the sources; per its use
in `quantile_split` ("number of significant digits to round to", spec:
quantile binning on rounded data) it rounds a float to `signif`
significant digits: numpy half-to-even rounding at the decimal
position `signif - 1 - ⌊log10 |x|⌋`. -/
def round_signif (x : ℚ) (signif : ℕ) : ℚ :=
  if x = 0 then 0
  else
    let p : ℤ := (signif : ℤ) - 1 - log10floor |x|
    (roundHalfEven (x * 10 ^ p) : ℚ) / (10 : ℚ) ^ p

/-- `np.round(x, 1)`: one decimal place, half to even. -/
def npRound1 (x : ℚ) : ℚ := (roundHalfEven (x * 10) : ℚ) / 10

/-- `np.quantile` with the default linear interpolation, taken over the
sorted data: at `h = q * (m - 1)` the value is
`x_⌊h⌋ + (h - ⌊h⌋) * (x_⌈h⌉ - x_⌊h⌋)`. -/
def npQuantile (xs : List ℚ) (q : ℚ) : ℚ :=
  let ys := List.insertionSort (· ≤ ·) xs
  let m := ys.length
  let h : ℚ := q * ((m : ℚ) - 1)
  let x1 := ys.getD ⌊h⌋.toNat 0
  let x2 := ys.getD ⌈h⌉.toNat x1
  x1 + (h - (⌊h⌋ : ℚ)) * (x2 - x1)

/-- pandas `Series.median` (skipna): midpoint of the sorted finite
entries, NaN when none exist. -/
def omedian (l : List (Option ℚ)) : Option ℚ :=
  let v := List.insertionSort (· ≤ ·) (valids l)
  if v.length = 0 then none
  else if v.length % 2 = 1 then some (v.getD (v.length / 2) 0)
  else some ((v.getD (v.length / 2 - 1) 0 + v.getD (v.length / 2) 0) / 2)

/-- pandas `fillna` with a float argument (`none` fills nothing). -/
def fillNa (l : List (Option ℚ)) (v : Option ℚ) : List (Option ℚ) :=
  l.map fun x? => match x? with | some x => some x | none => v

/-- One bucket produced by `quantile_split` (ds.py:624-645): index `_i`,
the exact boundaries `__q_min` / `__q_max` of the source, the adjusted
upper assignment bound `__q_max_adj` (`none` models `np.inf`), whether
the right boundary sign of the label is `<=`, and the rounded boundary
values shown in the label text. -/
structure QBucket where
  i : ℕ
  qMin : ℚ
  qMax : ℚ
  qMaxAdj : Option ℚ
  rightClosed : Bool
  dispMin : ℚ
  dispMax : ℚ
  deriving Repr, DecidableEq, Inhabited

/-- One iteration of the loop `for _q in np.arange(0, 1, 1/n)` of
`quantile_split`, at loop index `idx` (so `_q = idx / n`): `valid` is
`_s.dropna()` and `mx` is `_s.max()`.  Note the literal `.1` offsets
of the source (`_q + .1`), which agree with `1/n` only for `n = 10`. -/
def quantileBucketAt (valid : List ℚ) (mx : ℚ) (n : ℕ) (signif : Option ℕ)
    (idx : ℕ) : QBucket :=
  let q : ℚ := (idx : ℚ) / (n : ℚ)
  let qmin := npQuantile valid q
  let qmax := if 1 ≤ q + 1/10 then mx else npQuantile valid (q + 1/10)
  let lastB := npRound1 (q + 1/10) = 1
  { i := idx
    qMin := qmin
    qMax := qmax
    qMaxAdj := if lastB then none else some qmax
    rightClosed := lastB
    dispMin := match signif with | some k => round_signif qmin k | none => qmin
    dispMax := match signif with | some k => round_signif qmax k | none => qmax }

/-- The full bucket list of `quantile_split`. -/
def quantileBuckets (valid : List ℚ) (mx : ℚ) (n : ℕ) (signif : Option ℕ) :
    List QBucket :=
  (List.range n).map (quantileBucketAt valid mx n signif)

/-- The assignment test of one `np.where` pass of `quantile_split`:
`(_s >= __q_min) & (_s < __q_max_adj)`; an upper bound of `none` models
`np.inf` (every float is below it). -/
def memQB (x : ℚ) (b : QBucket) : Bool :=
  decide (b.qMin ≤ x) &&
    match b.qMaxAdj with | none => true | some m => decide (x < m)

/-- One `np.where((_s >= __q_min) & (_s < __q_max_adj), _q_name, _s_out)`
pass: positions whose (rounded) value falls in the bucket are
overwritten with that bucket's label, NaN positions are left alone. -/
def qsAssignStep (s : List (Option ℚ)) (b : QBucket)
    (out : List (Option QBucket)) : List (Option QBucket) :=
  List.zipWith (fun x? cur => match x? with
    | some x => if memQB x b then some b else cur
    | none => cur) s out

/-- The full assignment loop of `quantile_split`, starting from the
all-NaN series `_s_out = _s.apply(lambda _: np.nan)`. -/
def qsAssign (s : List (Option ℚ)) (bs : List QBucket) :
    List (Option QBucket) :=
  bs.foldl (fun out b => qsAssignStep s b out) (s.map fun _ => none)

/-- Result of `quantile_split`: either the untouched input series
(its dtype included: no cast to category) or a categorical series of
bucket labels. -/
inductive QSResult where
  | passthrough (s : List (Option ℚ))
  | cat (labels : List (Option QBucket))
  deriving Repr, DecidableEq

/-- Shallow embedding of `quantile_split` (ds.py:596-657).  `signif` is
`some k` for a rounding parameter `k`, `none` for `signif=None`; the
`astype(float)` / `np.where(~np.isfinite, nan, _)` steps of the source
are identities on this value model and are folded away. -/
def quantile_split (s : List (Option ℚ)) (n : ℕ)
    (signif : Option ℕ := some 2) (na_to_med : Bool := false) : QSResult :=
  if s.dedup.length ≤ n then .passthrough s
  else
    let s2 := if na_to_med then fillNa s (omedian s) else s
    let s3 := match signif with
      | some k => s2.map (Option.map (fun x => round_signif x k))
      | none => s2
    let valid := valids s3
    let mx := valid.max?.getD 0
    .cat (qsAssign s3 (quantileBuckets valid mx n signif))

/-- C8: for a series with at most `n` distinct values `quantile_split`
returns the series itself, unchanged and not cast to category, with no
binning, rounding or NaN handling performed. -/
theorem quantile_split_passthrough (s : List (Option ℚ)) (n : ℕ)
    (signif : Option ℕ) (na_to_med : Bool) (h : s.dedup.length ≤ n) :
    quantile_split s n signif na_to_med = .passthrough s := by
  unfold quantile_split
  rw [if_pos h]

/-- Witness for C8 at a concrete series with 2 distinct values and n = 5. -/
theorem quantile_split_passthrough_witness :
    ([some 1, some 2, some 1] : List (Option ℚ)).dedup.length ≤ 5 ∧
      quantile_split [some 1, some 2, some 1] 5 (some 2) false =
        .passthrough [some 1, some 2, some 1] :=
  ⟨by decide, quantile_split_passthrough _ _ _ _ (by decide)⟩

/-! ## rmsd (ds.py:1124-1161) -/

/-- The x values of the rows whose group key is `g`. -/
def groupVals {γ : Type} [DecidableEq γ] (rows : List (γ × Option ℚ)) (g : γ) :
    List (Option ℚ) :=
  (rows.filter (fun r => decide (r.1 = g))).map Prod.snd

/-- The sorted distinct keys: pandas `groupby` (default `sort=True`)
enumerates the groups in ascending key order. -/
def sortedKeys {γ : Type} [LinearOrder γ] (rows : List (γ × Option ℚ)) : List γ :=
  List.insertionSort (· ≤ ·) (rows.map Prod.fst).dedup

/-- One row of the grouped frame
`_df.groupby([group]).agg({x: ['count', agg_func]})`: the key, the
count of finite x values, and the aggregate of the finite x values
(NaN when the group has no finite value, since pandas aggregation
skips NaN).  `aggFn` models `agg_func` as a statistic of the finite
values. -/
structure GRow (γ : Type) where
  group : γ
  count : ℕ
  agg : Option ℚ
  deriving Repr, DecidableEq

/-- The grouped frame of `rmsd`, in pandas group order. -/
def groupedFrame {γ : Type} [LinearOrder γ] (aggFn : List ℚ → ℚ)
    (rows : List (γ × Option ℚ)) : List (GRow γ) :=
  (sortedKeys rows).map fun g =>
    { group := g, count := (valids (groupVals rows g)).length
      agg := if (valids (groupVals rows g)).length = 0 then none
        else some (aggFn (valids (groupVals rows g))) }

/-- One row of `_df_paired`: the self-merge of the grouped frame on the
dummy key, filtered to `group_x != group_y`. -/
structure PRow (γ : Type) where
  gx : γ
  gy : γ
  cx : ℕ
  cy : ℕ
  vx : Option ℚ
  vy : Option ℚ
  deriving Repr, DecidableEq

/-- The `weight` column: `count_x * count_y`. -/
def PRow.weight {γ : Type} (r : PRow γ) : ℚ := (r.cx : ℚ) * (r.cy : ℚ)

/-- The `difference` column: `agg_x - agg_y` (NaN-propagating). -/
def PRow.difference {γ : Type} (r : PRow γ) : Option ℚ :=
  match r.vx, r.vy with
  | some a, some b => some (a - b)
  | _, _ => none

/-- The `weighted_squared_difference` column: `weight * difference ** 2`. -/
def PRow.wsd {γ : Type} (r : PRow γ) : Option ℚ :=
  r.difference.map (fun d => r.weight * d ^ 2)

/-- `pd.merge(_df, _df, on='dummy')` filtered to distinct groups. -/
def pairedRows {γ : Type} [DecidableEq γ] (gr : List (GRow γ)) : List (PRow γ) :=
  ((gr.product gr).filter (fun p => decide (p.1.group ≠ p.2.group))).map
    fun p =>
      { gx := p.1.group, gy := p.2.group, cx := p.1.count, cy := p.2.count
        vx := p.1.agg, vy := p.2.agg }

/-- The `standardize` step of `rmsd`: `(x - mean) / std` with
`std = √var`.  `sqrtFn` stands for the float square root; the theorems
assume of it only the facts the source relies on (for the claims below
just `sqrtFn 0 = 0`). -/
def stdizeCol (sqrtFn : ℚ → ℚ) (xs : List (Option ℚ)) : List (Option ℚ) :=
  xs.map fun x? => match x?, omean xs, ovar xs with
    | some x, some m, some v => npDiv (x - m) (sqrtFn v)
    | _, _, _ => none

/-- The paired frame built by `rmsd` (returned when
`return_df_paired=True`). -/
def rmsdPaired {γ : Type} [LinearOrder γ] (sqrtFn : ℚ → ℚ)
    (aggFn : List ℚ → ℚ) (rows : List (γ × Option ℚ))
    (standardize : Bool) (to_abs : Bool) : List (PRow γ) :=
  let xs := rows.map Prod.snd
  let xs1 := if to_abs then xs.map (Option.map (fun v => |v|)) else xs
  let xs2 := if standardize then stdizeCol sqrtFn xs1 else xs1
  pairedRows (groupedFrame aggFn ((rows.map Prod.fst).zip xs2))

/-- Shallow embedding of `rmsd` with `return_df_paired=False`
(ds.py:1124-1161), up to the final `np.sqrt`: the float the source
returns is the square root of this value (`none` is NaN, and
`np.sqrt` maps NaN to NaN), namely the skipna sum of the weighted
squared differences over the weight sum. -/
def rmsdSq {γ : Type} [LinearOrder γ] (sqrtFn : ℚ → ℚ) (aggFn : List ℚ → ℚ)
    (rows : List (γ × Option ℚ)) (standardize : Bool := false)
    (to_abs : Bool := false) : Option ℚ :=
  let pr := rmsdPaired sqrtFn aggFn rows standardize to_abs
  npDiv (osum (pr.map PRow.wsd)) ((pr.map PRow.weight).sum)

/-- The formula the spec states for C2: over all ordered pairs of
distinct group levels, the mean of squared differences of the
per-group aggregates, weighted by the product of the two group row
counts. -/
def specRmsdMean {γ : Type} [DecidableEq γ] (aggFn : List ℚ → ℚ)
    (rows : List (γ × ℚ)) : ℚ :=
  let ks := (rows.map Prod.fst).dedup
  let c : γ → ℚ := fun g => ((rows.filter (fun r => decide (r.1 = g))).length : ℚ)
  let v : γ → ℚ := fun g => aggFn ((rows.filter (fun r => decide (r.1 = g))).map Prod.snd)
  let ps := (ks.product ks).filter (fun p => decide (p.1 ≠ p.2))
  (ps.map (fun p => c p.1 * c p.2 * (v p.1 - v p.2) ^ 2)).sum /
    (ps.map (fun p => c p.1 * c p.2)).sum

/-- Cartesian product commutes with mapping both factors. -/
theorem product_map {α β α' β' : Type} (f : α → α') (g : β → β')
    (l : List α) (t : List β) :
    (l.map f).product (t.map g) = (l.product t).map (Prod.map f g) := by
  show ((l.map f).flatMap fun a => (t.map g).map (Prod.mk a))
      = ((l.flatMap fun a => t.map (Prod.mk a)).map (Prod.map f g))
  rw [List.flatMap_map, List.map_flatMap]
  refine List.flatMap_congr ?_  -- hmm may not exist
  intro a _
  rw [List.map_map, List.map_map]
  rfl

/-- C2: for a NaN-free frame with at least two distinct group levels,
`rmsd` with `return_df_paired=False` computes (under the final
`np.sqrt`) exactly the count-weighted mean of squared differences of
the per-group aggregates over all ordered pairs of distinct groups,
weighted by the product of the two group row counts. -/
theorem rmsd_weighted_mean {γ : Type} [LinearOrder γ] (sqrtFn : ℚ → ℚ)
    (aggFn : List ℚ → ℚ) (rows : List (γ × ℚ))
    (h2 : 2 ≤ (rows.map Prod.fst).dedup.length) :
    rmsdSq sqrtFn aggFn (rows.map (fun r => (r.1, some r.2))) false false =
      some (specRmsdMean aggFn rows) := by
  classical
  set ks := (rows.map Prod.fst).dedup with hks
  set cN : γ → ℕ := fun g => (rows.filter (fun r => decide (r.1 = g))).length with hcN
  set vQ : γ → ℚ := fun g => aggFn ((rows.filter (fun r => decide (r.1 = g))).map Prod.snd) with hvQ
  set emb : γ × ℚ → γ × Option ℚ := fun r => (r.1, some r.2) with hemb
  -- the zipped frame inside rmsdPaired is the embedded frame itself
  have hzip : ((rows.map emb).map Prod.fst).zip ((rows.map emb).map Prod.snd)
      = rows.map emb := by
    rw [List.map_map, List.map_map, List.zip_map']
    rfl
  -- group values of the embedded frame
  have hvalids : ∀ g, valids (groupVals (rows.map emb) g)
      = (rows.filter (fun r => decide (r.1 = g))).map Prod.snd := by
    intro g
    show valids (((rows.map emb).filter (fun r => decide (r.1 = g))).map Prod.snd) = _
    rw [List.filter_map]
    have : ((fun r : γ × Option ℚ => decide (r.1 = g)) ∘ emb)
        = fun r : γ × ℚ => decide (r.1 = g) := rfl
    rw [this, List.map_map, valids]
    have : (Prod.snd ∘ emb) = fun r : γ × ℚ => some r.2 := rfl
    rw [this]
    rw [show (fun r : γ × ℚ => some r.2) = some ∘ (fun r : γ × ℚ => r.2) from rfl]
    rw [List.filterMap_map]
    simp [List.filterMap_eq_map]
  have hmemks : ∀ g ∈ ks, 0 < cN g := by
    intro g hg
    rw [hks, List.mem_dedup] at hg
    obtain ⟨r, hr, hr1⟩ := List.mem_map.mp hg
    have : r ∈ rows.filter (fun r => decide (r.1 = g)) :=
      List.mem_filter.mpr ⟨hr, by simp [hr1]⟩
    exact List.length_pos.mpr (List.ne_nil_of_mem this)
  -- the grouped frame is the sorted key list mapped through one record builder
  set G : γ → GRow γ := fun g => ⟨g, cN g, some (vQ g)⟩ with hG
  have hsortperm : (List.insertionSort (· ≤ ·) ks).Perm ks := List.perm_insertionSort _ _
  have hgrouped : groupedFrame aggFn (rows.map emb)
      = (List.insertionSort (· ≤ ·) ks).map G := by
    rw [groupedFrame, sortedKeys]
    have : ((rows.map emb).map Prod.fst).dedup = ks := by
      rw [List.map_map]; rfl
    rw [this]
    refine List.map_congr_left ?_
    intro g hg
    have hgks : g ∈ ks := hsortperm.mem_iff.mp hg
    have hpos := hmemks g hgks
    have hlen : (valids (groupVals (rows.map emb) g)).length = cN g := by
      rw [hvalids g, List.length_map]
    simp only [hvalids g, List.length_map]
    rw [show ((rows.filter (fun r => decide (r.1 = g))).length : ℕ) = cN g from rfl]
    rw [if_neg (by omega)]
  -- transport the paired rows to the unsorted key list
  have hpairperm : (pairedRows ((List.insertionSort (· ≤ ·) ks).map G)).Perm
      (pairedRows (ks.map G)) := by
    unfold pairedRows
    exact (((hsortperm.map G).product (hsortperm.map G)).filter _).map _
  -- the paired rows over the unsorted key list, concretely
  set ps := (ks.product ks).filter (fun p => decide (p.1 ≠ p.2)) with hps
  have hpaired : pairedRows (ks.map G)
      = ps.map (fun p => ⟨p.1, p.2, cN p.1, cN p.2, some (vQ p.1), some (vQ p.2)⟩) := by
    unfold pairedRows
    rw [product_map]
    rw [List.filter_map]
    have : ((fun p : GRow γ × GRow γ => decide (p.1.group ≠ p.2.group)) ∘ Prod.map G G)
        = fun p : γ × γ => decide (p.1 ≠ p.2) := rfl
    rw [this, List.map_map]
    rfl
  have hwsd : ∀ {l : List (PRow γ)} {l' : List (PRow γ)}, l.Perm l' →
      osum (l.map PRow.wsd) = osum (l'.map PRow.wsd) := by
    intro l l' hp
    unfold osum valids
    exact (((hp.map _).filterMap _)).sum_eq
  have hwt : ∀ {l l' : List (PRow γ)}, l.Perm l' →
      (l.map PRow.weight).sum = (l'.map PRow.weight).sum := by
    intro l l' hp
    exact (hp.map _).sum_eq
  -- the two sums over the concrete paired rows
  have hnum : osum ((pairedRows (ks.map G)).map PRow.wsd)
      = (ps.map (fun p => (cN p.1 : ℚ) * (cN p.2 : ℚ) * (vQ p.1 - vQ p.2) ^ 2)).sum := by
    rw [hpaired, List.map_map]
    have : (PRow.wsd ∘ fun p : γ × γ =>
        (⟨p.1, p.2, cN p.1, cN p.2, some (vQ p.1), some (vQ p.2)⟩ : PRow γ))
        = fun p : γ × γ => some ((cN p.1 : ℚ) * (cN p.2 : ℚ) * (vQ p.1 - vQ p.2) ^ 2) := by
      funext p
      simp [PRow.wsd, PRow.difference, PRow.weight]
    rw [this]
    unfold osum valids
    rw [show (fun p : γ × γ => some ((cN p.1 : ℚ) * (cN p.2 : ℚ) * (vQ p.1 - vQ p.2) ^ 2))
      = some ∘ (fun p : γ × γ => (cN p.1 : ℚ) * (cN p.2 : ℚ) * (vQ p.1 - vQ p.2) ^ 2) from rfl]
    rw [List.filterMap_map]
    simp [List.filterMap_eq_map]
  have hden : ((pairedRows (ks.map G)).map PRow.weight).sum
      = (ps.map (fun p => (cN p.1 : ℚ) * (cN p.2 : ℚ))).sum := by
    rw [hpaired, List.map_map]
    rfl
  -- the denominator is positive
  have hdenpos : 0 < (ps.map (fun p => (cN p.1 : ℚ) * (cN p.2 : ℚ))).sum := by
    refine List.sum_pos _ ?_ ?_
    · intro x hx
      obtain ⟨p, hp, hpx⟩ := List.mem_map.mp hx
      have hpmem := List.mem_filter.mp hp
      obtain ⟨h1, h2⟩ := List.pair_mem_product.mp (by exact hpmem.1)
      have c1 := hmemks _ h1
      have c2 := hmemks _ h2
      rw [← hpx]
      positivity
    · have hnodup : ks.Nodup := List.nodup_dedup _
      match hksval : ks, h2 with
      | k0 :: k1 :: rest, _ =>
        have hne : k0 ≠ k1 := by
          rw [hksval] at hnodup
          intro h
          exact (List.nodup_cons.mp hnodup).1 (h ▸ List.mem_cons_self _ _)
        have : (k0, k1) ∈ ps := by
          rw [hps, hksval]
          refine List.mem_filter.mpr ⟨?_, by simp [hne]⟩
          refine List.pair_mem_product.mpr ⟨List.mem_cons_self _ _, ?_⟩
          exact List.mem_cons_of_mem _ (List.mem_cons_self _ _)
        intro hnil
        have hpsnil : ps = [] := List.map_eq_nil_iff.mp hnil
        rw [hpsnil] at this
        simp at this
  -- assemble
  rw [rmsdSq, rmsdPaired]
  simp only [Bool.false_eq_true, if_false]
  rw [hzip, hgrouped]
  rw [hwsd hpairperm, hwt hpairperm, hnum, hden]
  rw [npDiv, if_neg (by exact ne_of_gt hdenpos)]
  rw [specRmsdMean]

/-- Witness for C2 at a concrete two-group frame, with the sum as
aggregation function. -/
theorem rmsd_weighted_mean_witness :
    2 ≤ (([((0 : ℕ), (1 : ℚ)), (1, 5)]).map Prod.fst).dedup.length ∧
      rmsdSq id (fun l => l.sum)
          (([((0 : ℕ), (1 : ℚ)), (1, 5)]).map (fun r => (r.1, some r.2))) false false =
        some (specRmsdMean (fun l => l.sum) [((0 : ℕ), (1 : ℚ)), (1, 5)]) :=
  ⟨by decide, rmsd_weighted_mean _ _ _ (by decide)⟩

/-! ## acc and f_score (ds.py:661-681, 889-945) -/

/-- Shallow embedding of `acc` (ds.py:661):
`np.sum(y_true == y_pred) / len(y_true)`.  pandas elementwise equality
treats NaN as unequal to everything, and numpy division of the match
count by a zero length warns and yields NaN instead of raising. -/
def acc (y_true y_pred : List (Option ℚ)) : Option ℚ :=
  let eqs := List.zipWith (fun a b => match a, b with
    | some x, some y => decide (x = y)
    | _, _ => false) y_true y_pred
  npDiv ((eqs.count true : ℕ) : ℚ) ((y_true.length : ℕ) : ℚ)

/-- Shallow embedding of `f_score` (ds.py:889) in the ungrouped form:
the two columns as a frame, the optional `dropna` over both columns,
the explicit `if _df.shape[0] == 0: return np.nan` guard, then the
scoring callable `f` on the two columns.  The wrappers `r2`, `rmse`,
`mae`, `stdae`, `medae` and `corr` are `f_score` at specific `f`. -/
def f_score (f : List (Option ℚ) → List (Option ℚ) → Option ℚ)
    (y_true y_pred : List (Option ℚ)) (dropna : Bool := false) : Option ℚ :=
  let rows := y_true.zip y_pred
  let rows2 := if dropna then rows.filter (fun r => r.1.isSome && r.2.isSome) else rows
  if rows2.length = 0 then none
  else f (rows2.map Prod.fst) (rows2.map Prod.snd)

/-- The sample variance of a constant column is 0 (or NaN when fewer
than two entries exist). -/
theorem ovar_const {α : Type} (l : List α) (c : ℚ) :
    ovar (l.map fun _ => some c) = none ∨ ovar (l.map fun _ => some c) = some 0 := by
  have hv : valids (l.map fun _ => some c) = l.map fun _ => c := by
    unfold valids
    rw [show (fun _ : α => some c) = some ∘ (fun _ : α => c) from rfl, List.filterMap_map]
    simp [List.filterMap_eq_map]
  by_cases hlen : (l.map fun _ : α => c).length ≤ 1
  · left
    unfold ovar
    rw [hv, if_pos hlen]
  · right
    unfold ovar
    rw [hv, if_neg hlen]
    have hne : ((l.map fun _ : α => c).length : ℚ) ≠ 0 := by
      have hne0 : (l.map fun _ : α => c).length ≠ 0 := by omega
      exact_mod_cast hne0
    have hsum : (l.map fun _ : α => c).sum = ((l.map fun _ : α => c).length : ℚ) * c := by
      rw [show (fun _ : α => c) = Function.const α c from rfl, List.map_const,
        List.sum_replicate, nsmul_eq_mul, List.length_replicate]
    have hm : (l.map fun _ : α => c).sum / ((l.map fun _ : α => c).length : ℚ) = c := by
      rw [hsum, mul_comm, mul_div_assoc, div_self hne, mul_one]
    simp only [hm]
    have : ((l.map fun _ : α => c).map fun x => (x - c) ^ 2)
        = (l.map fun _ : α => c).map fun _ => (0 : ℚ) := by
      rw [List.map_map, List.map_map]
      refine List.map_congr_left ?_
      intro a _
      simp
    rw [this]
    have hz : ((l.map fun _ : α => c).map fun _ => (0 : ℚ)).sum = 0 := by
      refine List.sum_eq_zero ?_
      intro x hx
      obtain ⟨a, _, hax⟩ := List.mem_map.mp hx
      exact hax.symm
    rw [hz, zero_div]

/-- Standardizing a constant column turns every entry into NaN: the
numerator and the standard deviation are both zero and `0 / 0` is NaN
(only `√0 = 0` is used about the float square root). -/
theorem stdizeCol_const {α : Type} (sqrtFn : ℚ → ℚ) (hsqrt : sqrtFn 0 = 0)
    (l : List α) (c : ℚ) :
    ∀ y ∈ stdizeCol sqrtFn (l.map fun _ => some c), y = none := by
  intro y hy
  unfold stdizeCol at hy
  obtain ⟨x, _, hxy⟩ := List.mem_map.mp hy
  rcases ovar_const l c with hvar | hvar <;>
    rcases homean : omean (l.map fun _ : α => some c) with _ | m <;>
      rcases x with _ | xv <;>
        simp only [hvar, homean, npDiv, hsqrt, if_pos rfl] at hxy <;>
          exact hxy.symm

/-- C6: degenerate statistical inputs yield NaN rather than raising:
`f_score` (hence its wrappers such as `corr`) on a frame with zero
rows hits the explicit shape guard before the scoring callable runs;
`acc` on zero rows divides a zero match count by the zero length;
`rmsd` with `standardize=True` on a zero-variance (constant) column
standardizes it into an all-NaN column, so every group count and
weight vanishes and the final ratio is `0 / 0`. -/
theorem degenerate_inputs_nan {γ : Type} [LinearOrder γ]
    (f : List (Option ℚ) → List (Option ℚ) → Option ℚ) (dropna : Bool)
    (keys : List γ) (c : ℚ) (sqrtFn : ℚ → ℚ) (aggFn : List ℚ → ℚ)
    (hsqrt : sqrtFn 0 = 0) :
    f_score f [] [] dropna = none ∧ acc [] [] = none ∧
      rmsdSq sqrtFn aggFn (keys.map fun k => (k, some c)) true false = none := by
  refine ⟨?_, ?_, ?_⟩
  · unfold f_score
    cases dropna <;> simp
  · unfold acc
    simp [npDiv]
  · rw [rmsdSq, rmsdPaired]
    simp only [Bool.false_eq_true, if_false, if_true, List.map_map]
    have hfst : (keys.map ((fun k => (k, some c)) · |>.1)) = keys := by
      simp
    have hsnd : (Prod.snd ∘ fun k : γ => (k, some c)) = fun _ : γ => some c := rfl
    rw [hsnd]
    set xs2 := stdizeCol sqrtFn (keys.map fun _ => some c) with hxs2
    have hxs2none : ∀ y ∈ xs2, y = none := stdizeCol_const sqrtFn hsqrt keys c
    set rows2 := (keys.map (Prod.fst ∘ fun k : γ => (k, some c))).zip xs2 with hrows2
    have hrows2none : ∀ r ∈ rows2, r.2 = none := by
      intro r hr
      obtain ⟨a, b⟩ := r
      exact hxs2none _ (List.of_mem_zip hr).2
    have hgv : ∀ g, valids (groupVals rows2 g) = [] := by
      intro g
      unfold valids groupVals
      rw [List.filterMap_map]
      refine List.filterMap_eq_nil_iff.mpr ?_
      intro r hr
      have : r.2 = none := hrows2none r (List.mem_filter.mp hr).1
      simp [this]
    have hgr : ∀ gr ∈ groupedFrame aggFn rows2, gr.count = 0 ∧ gr.agg = none := by
      intro gr hgr
      obtain ⟨g, _, hgeq⟩ := List.mem_map.mp hgr
      rw [← hgeq]
      simp [hgv g]
    have hpr : ∀ pr ∈ pairedRows (groupedFrame aggFn rows2),
        PRow.weight pr = 0 ∧ PRow.wsd pr = none := by
      intro pr hpr
      obtain ⟨p, hp, hpeq⟩ := List.mem_map.mp hpr
      obtain ⟨pa, pb⟩ := p
      have hpmem : (pa, pb) ∈ (groupedFrame aggFn rows2).product (groupedFrame aggFn rows2) :=
        (List.mem_filter.mp hp).1
      have h1 : pa ∈ groupedFrame aggFn rows2 := (List.pair_mem_product.mp hpmem).1
      have h2 : pb ∈ groupedFrame aggFn rows2 := (List.pair_mem_product.mp hpmem).2
      rw [← hpeq]
      constructor
      · show ((pa.count : ℚ) * (pb.count : ℚ)) = 0
        rw [(hgr _ h1).1, (hgr _ h2).1]
        simp
      · show Option.map _ (PRow.difference _) = none
        have hdiff : PRow.difference
            ⟨pa.group, pb.group, pa.count, pb.count, pa.agg, pb.agg⟩ = none := by
          unfold PRow.difference
          rw [show (⟨pa.group, pb.group, pa.count, pb.count, pa.agg, pb.agg⟩ :
            PRow γ).vx = pa.agg from rfl]
          rw [(hgr _ h1).2]
        rw [hdiff]
        rfl
    have hsum0 : osum ((pairedRows (groupedFrame aggFn rows2)).map PRow.wsd) = 0 := by
      unfold osum
      have : valids ((pairedRows (groupedFrame aggFn rows2)).map PRow.wsd) = [] := by
        unfold valids
        rw [List.filterMap_map]
        refine List.filterMap_eq_nil_iff.mpr ?_
        intro r hr
        simp [(hpr r hr).2]
      rw [this]
      rfl
    have hwt0 : (((pairedRows (groupedFrame aggFn rows2)).map PRow.weight)).sum = 0 := by
      refine List.sum_eq_zero ?_
      intro x hx
      obtain ⟨r, hr, hrx⟩ := List.mem_map.mp hx
      rw [← hrx]
      exact (hpr r hr).1
    rw [hsum0, hwt0, npDiv, if_pos rfl]

/-- Witness for C6: a concrete scoring callable, a concrete two-row
constant frame, and the identity as float square root. -/
theorem degenerate_inputs_nan_witness :
    id (0 : ℚ) = 0 ∧
      (f_score (fun _ _ => some 0) [] [] true = none ∧ acc [] [] = none ∧
        rmsdSq id (fun l => l.sum)
          (([(0 : ℕ), 1]).map fun k => (k, some (5 : ℚ))) true false = none) :=
  ⟨rfl, degenerate_inputs_nan (fun _ _ => some 0) true [0, 1] 5 id (fun l => l.sum) rfl⟩

/-! ## mahalanobis (ds.py:1855-1908) -/

/-- Determinant of a square rational matrix given as a list of rows, by
Laplace expansion along the first row; the first argument is fuel that
the wrapper instantiates with the row count. -/
def detAux : ℕ → List (List ℚ) → ℚ
  | _, [] => 1
  | 0, _ :: _ => 0
  | fuel + 1, r :: rs =>
    ((List.range r.length).map fun j =>
      (-1 : ℚ) ^ j * r.getD j 0 * detAux fuel (rs.map (fun row => row.eraseIdx j))).sum

/-- Determinant of a square matrix as a list of rows. -/
def detLL (m : List (List ℚ)) : ℚ := detAux m.length m

/-- Matrix inverse by adjugate over determinant (defined on the branch
where the determinant is nonzero). -/
def invLL (m : List (List ℚ)) : List (List ℚ) :=
  (List.range m.length).map fun i => (List.range m.length).map fun j =>
    (-1 : ℚ) ^ (i + j) * detLL ((m.eraseIdx j).map (fun row => row.eraseIdx i)) / detLL m

/-- The quadratic form `vᵀ M v`. -/
def quadFormLL (m : List (List ℚ)) (v : List ℚ) : ℚ :=
  ((List.range v.length).map fun i => ((List.range v.length).map fun j =>
    v.getD i 0 * ((m.getD i []).getD j 0) * v.getD j 0).sum).sum

/-- Column `j` of a frame given as a list of rows. -/
def colOf (rows : List (List ℚ)) (j : ℕ) : List ℚ := rows.map (fun r => r.getD j 0)

/-- pandas `DataFrame.cov` entry (`ddof = 1`) for NaN-free columns.  On
a frame with fewer than two rows pandas yields NaN; the `0 / 0 = 0`
convention of ℚ stands in for it here, and no theorem relies on that
corner. -/
def covEntry (rows : List (List ℚ)) (i j : ℕ) : ℚ :=
  let x := colOf rows i
  let y := colOf rows j
  let n : ℚ := (rows.length : ℚ)
  ((List.zipWith (fun a b => (a - x.sum / n) * (b - y.sum / n)) x y).sum) / (n - 1)

/-- `df.cov()` over the first `k` columns. -/
def covLL (rows : List (List ℚ)) (k : ℕ) : List (List ℚ) :=
  (List.range k).map fun i => (List.range k).map fun j => covEntry rows i j

/-- The `point` argument of `mahalanobis`: a DataFrame of several
points, or a single point (Series or array). -/
inductive MPoint where
  | frame (pts : List (List ℚ))
  | single (x : List ℚ)
  deriving Repr, DecidableEq

/-- The result of `mahalanobis`: a scalar float or a list of floats. -/
inductive MResult where
  | scalar (v : Option ℚ)
  | list (vs : List (Option ℚ))
  deriving Repr, DecidableEq

/-- Shallow embedding of `mahalanobis` (ds.py:1855-1908) with
`params=None`.  `np.linalg.inv` raises `LinAlgError` exactly on a
singular covariance matrix, modelled as a zero determinant; the
`except` branch then returns one scalar NaN, whatever the form of
`point`.  On the regular branch the reported numbers are the squared
distances `(x - μ)ᵀ V⁻¹ (x - μ)` (scipy returns their square roots,
which changes no definedness or shape fact below). -/
def mahalanobis (point : MPoint) (df : Option (List (List ℚ))) : MResult :=
  let ref := match df with
    | some d => d
    | none => match point with | .frame p => p | .single x => [x]
  let k := (ref.headD []).length
  let cv := covLL ref k
  if detLL cv = 0 then .scalar none
  else
    let vi := invLL cv
    let mean := (List.range k).map fun j => (colOf ref j).sum / (ref.length : ℚ)
    match point with
    | .frame pts => .list (pts.map fun r =>
        some (quadFormLL vi (List.zipWith (fun a b => a - b) r mean)))
    | .single x => .scalar (some (quadFormLL vi (List.zipWith (fun a b => a - b) x mean)))

/-- A concrete reference frame with two identical columns: its
covariance matrix is singular. -/
theorem covSingularExample :
    detLL (covLL [[1, 1], [2, 2], [3, 3]]
      (([[1, 1], [2, 2], [3, 3]] : List (List ℚ)).headD []).length) = 0 := by
  show detLL [[covEntry _ 0 0, covEntry _ 0 1], [covEntry _ 1 0, covEntry _ 1 1]] = 0
  have hc : ∀ i j, i < 2 → j < 2 → covEntry [[1, 1], [2, 2], [3, 3]] i j = 1 := by
    intro i j hi hj
    interval_cases i <;> interval_cases j <;>
      · show (List.zipWith _ _ _).sum / _ = 1
        norm_num [colOf]
  rw [hc 0 0 (by norm_num) (by norm_num), hc 0 1 (by norm_num) (by norm_num),
    hc 1 0 (by norm_num) (by norm_num), hc 1 1 (by norm_num) (by norm_num)]
  show detAux 2 [[1, 1], [1, 1]] = 0
  norm_num [detAux, List.range_succ, List.eraseIdx]

/-- C7 counterexample: a reference frame with two identical columns has
a singular covariance matrix, and `mahalanobis` on a two-point
DataFrame then returns one scalar NaN, not a list with one NaN entry
per point as the claim states. -/
theorem mahalanobis_df_counterexample :
    mahalanobis (.frame [[0, 0], [1, 1]]) (some [[1, 1], [2, 2], [3, 3]])
        = .scalar none ∧
      ¬ ∃ vs, mahalanobis (.frame [[0, 0], [1, 1]]) (some [[1, 1], [2, 2], [3, 3]])
        = .list vs := by
  have h1 : mahalanobis (.frame [[0, 0], [1, 1]]) (some [[1, 1], [2, 2], [3, 3]])
      = .scalar none := by
    rw [mahalanobis]
    rw [if_pos covSingularExample]
  refine ⟨h1, ?_⟩
  rintro ⟨vs, hvs⟩
  rw [h1] at hvs
  exact MResult.noConfusion hvs

/-- C7 amended: whenever the covariance matrix of the reference frame is
singular (the inversion raises), `mahalanobis` returns a single scalar
NaN — for DataFrame input as well, where no list is produced. -/
theorem mahalanobis_singular_scalar_nan (point : MPoint)
    (df : List (List ℚ))
    (hdet : detLL (covLL df (df.headD []).length) = 0) :
    mahalanobis point (some df) = .scalar none := by
  rw [mahalanobis]
  rw [if_pos hdet]

/-- Witness for the amended C7 theorem at the concrete singular frame. -/
theorem mahalanobis_singular_scalar_nan_witness :
    detLL (covLL [[1, 1], [2, 2], [3, 3]]
        (([[1, 1], [2, 2], [3, 3]] : List (List ℚ)).headD []).length) = 0 ∧
      mahalanobis (.frame [[0, 0], [1, 1]]) (some [[1, 1], [2, 2], [3, 3]])
        = .scalar none :=
  ⟨covSingularExample,
    mahalanobis_singular_scalar_nan _ _ covSingularExample⟩

/-! ## drop_duplicate_indices (ds.py:254-262) -/

/-- A DataFrame as `drop_duplicate_indices` sees it: a row index and
named columns. -/
structure DF where
  index : List ℤ
  cols : List (String × List ℚ)
  deriving Repr, DecidableEq

/-- Python attribute lookup `df.indices`: a pandas DataFrame has no
attribute of that name, so `__getattr__` falls back to the column named
`indices` and raises `AttributeError` when none exists. -/
def getattrIndices (df : DF) : Except String (List ℚ) :=
  match df.cols.find? (fun c => decide (c.1 = "indices")) with
  | some c => .ok c.2
  | none => .error "AttributeError"

/-- `duplicated()` (keep='first'): mark occurrences strictly after the
first. -/
def dupMaskGo {α : Type} [DecidableEq α] (seen : List α) : List α → List Bool
  | [] => []
  | x :: xs => decide (x ∈ seen) :: dupMaskGo (x :: seen) xs

/-- `duplicated()` over a whole column. -/
def dupMask {α : Type} [DecidableEq α] (l : List α) : List Bool := dupMaskGo [] l

/-- `df.loc[mask, :]`: keep the rows where the aligned boolean mask
holds. -/
def locMask (df : DF) (mask : List Bool) : DF :=
  { index := (df.index.zip mask).filterMap (fun p => if p.2 then some p.1 else none)
    cols := df.cols.map fun c =>
      (c.1, (c.2.zip mask).filterMap (fun p => if p.2 then some p.1 else none)) }

/-- Shallow embedding of `drop_duplicate_indices` (ds.py:254-262):
`df.loc[~df.indices.duplicated(), :]`, with the source's `indices`
attribute (the row index attribute is spelled `index`). -/
def drop_duplicate_indices (df : DF) : Except String DF := do
  let c ← getattrIndices df
  pure (locMask df ((dupMask c).map (fun b => !b)))

/-- C9 counterexample: on a DataFrame that happens to have a column
named `indices`, the attribute lookup falls back to that column, no
exception is raised, and a frame is returned (rows filtered by
duplicate column values, not by duplicate index labels). -/
theorem drop_duplicate_indices_counterexample :
    drop_duplicate_indices ⟨[10, 11, 12], [("indices", [1, 1, 2])]⟩
        = .ok ⟨[10, 12], [("indices", [1, 2])]⟩ ∧
      ∀ e, drop_duplicate_indices ⟨[10, 11, 12], [("indices", [1, 1, 2])]⟩
        ≠ .error e := by
  refine ⟨rfl, ?_⟩
  intro e h
  rw [show drop_duplicate_indices ⟨[10, 11, 12], [("indices", [1, 1, 2])]⟩
    = .ok ⟨[10, 12], [("indices", [1, 2])]⟩ from rfl] at h
  exact Except.noConfusion h

/-- C9 amended: for every DataFrame without a column named `indices`,
`drop_duplicate_indices` raises `AttributeError` and never returns;
with such a column it returns a frame filtered by that column's
duplicate values, so the advertised drop of duplicate row indices
happens in no case. -/
theorem drop_duplicate_indices_raises (df : DF)
    (h : ∀ c ∈ df.cols, c.1 ≠ "indices") :
    drop_duplicate_indices df = .error "AttributeError" := by
  have hfind : df.cols.find? (fun c => decide (c.1 = "indices")) = none := by
    refine List.find?_eq_none.mpr ?_
    intro c hc
    simpa using h c hc
  rw [drop_duplicate_indices, getattrIndices, hfind]
  rfl

/-- Witness for the amended C9 theorem at a one-column frame. -/
theorem drop_duplicate_indices_raises_witness :
    (∀ c ∈ (DF.mk [0] [("a", [1])]).cols, c.1 ≠ "indices") ∧
      drop_duplicate_indices ⟨[0], [("a", [1])]⟩ = .error "AttributeError" :=
  ⟨by decide, drop_duplicate_indices_raises _ (by decide)⟩

/-! ## outlier_to_nan (ds.py:290-342) and pass_by_group (ds.py:387-414) -/

/-- NaN-propagating subtraction of floats. -/
def oSub (a b : Option ℚ) : Option ℚ :=
  match a, b with | some x, some y => some (x - y) | _, _ => none

/-- NaN-propagating addition of floats. -/
def oAdd (a b : Option ℚ) : Option ℚ :=
  match a, b with | some x, some y => some (x + y) | _, _ => none

/-- NaN-propagating absolute value. -/
def oAbs (a : Option ℚ) : Option ℚ := a.map (fun v => |v|)

/-- NaN-propagating multiplication by a finite constant. -/
def oScale (c : ℚ) (a : Option ℚ) : Option ℚ := a.map (fun v => c * v)

/-- `Series.shift(1)`: move values one row down, NaN in the first row. -/
def shiftDown (xs : List (Option ℚ)) : List (Option ℚ) :=
  match xs with
  | [] => []
  | _ :: _ => none :: xs.dropLast

/-- `Series.shift(-1)`: move values one row up, NaN in the last row. -/
def shiftUp (xs : List (Option ℚ)) : List (Option ℚ) :=
  match xs with
  | [] => []
  | _ :: t => t ++ [none]

/-- `Series.bfill`: replace each NaN by the next finite value below it. -/
def bfill : List (Option ℚ) → List (Option ℚ)
  | [] => []
  | x :: xs =>
    (match x with | some v => some v | none => (bfill xs).headD none) :: bfill xs

/-- Helper of `ffill` carrying the last finite value seen. -/
def ffillGo (prev : Option ℚ) : List (Option ℚ) → List (Option ℚ)
  | [] => []
  | x :: xs =>
    match x with
    | some v => some v :: ffillGo (some v) xs
    | none => prev :: ffillGo prev xs

/-- `Series.ffill`: replace each NaN by the last finite value above it. -/
def ffill (xs : List (Option ℚ)) : List (Option ℚ) := ffillGo none xs

/-- The last finite entry strictly before position `j`, with its
position. -/
def prevValid (xs : List (Option ℚ)) (j : ℕ) : Option (ℕ × ℚ) :=
  (List.range j).reverse.findSome? fun i => (xs.getD i none).map (fun v => (i, v))

/-- The first finite entry strictly after position `j`, with its
position. -/
def nextValid (xs : List (Option ℚ)) (j : ℕ) : Option (ℕ × ℚ) :=
  ((List.range xs.length).drop (j + 1)).findSome? fun i =>
    (xs.getD i none).map (fun v => (i, v))

/-- pandas `Series.interpolate()` (linear, default `limit_direction`):
interior NaN runs are filled linearly between the neighbouring finite
values, trailing NaNs repeat the last finite value, leading NaNs stay
NaN. -/
def interpolateLin (xs : List (Option ℚ)) : List (Option ℚ) :=
  xs.enum.map fun p => match p.2 with
    | some v => some v
    | none =>
      match prevValid xs p.1, nextValid xs p.1 with
      | some iv, some kv =>
          some (iv.2 + (kv.2 - iv.2) * (((p.1 : ℚ) - (iv.1 : ℚ)) / ((kv.1 : ℚ) - (iv.1 : ℚ))))
      | some iv, none => some iv.2
      | none, _ => none

/-- The comparison `np.abs(delta - mean) <= std_cutoff * std` of the
source, with `std = √var`, in the equivalent squared form: for
`0 ≤ c` both sides are nonnegative, so squaring preserves the
inequality; for `c < 0` the right side is nonpositive and the test
holds only when both sides vanish. -/
def cutoffCond (c : ℚ) (δ μ v : ℚ) : Bool :=
  if 0 ≤ c then decide ((δ - μ) ^ 2 ≤ c ^ 2 * v)
  else decide (δ - μ = 0 ∧ v = 0)

/-- The `_dummy_delta` column of `outlier_to_nan`:
`.5 * (|x - shift(1).bfill| + |x - shift(-1).ffill|)` over the
interpolated column, for the materialized single-group case
(`groupby=None` adds a constant `__groupby` column, under which the
grouped transforms coincide with the plain ones). -/
def deltaCol (xs : List (Option ℚ)) : List (Option ℚ) :=
  List.zipWith (fun p nx => oScale (1/2) (oAdd (oAbs (oSub p.1 p.2)) (oAbs (oSub p.1 nx))))
    ((interpolateLin xs).zip (bfill (shiftDown (interpolateLin xs))))
    (ffill (shiftUp (interpolateLin xs)))

/-- A DataFrame as `outlier_to_nan` sees it: row index, the filtered
column, and the untouched remaining columns. -/
structure DFrame where
  index : List ℤ
  col : List (Option ℚ)
  others : List (String × List (Option ℚ))
  deriving Repr, DecidableEq

/-- One pass of the `for _rep in range(reps)` loop of `outlier_to_nan`
(ds.py:310-337) in the single-group case: compute the delta column,
its group mean and standard deviation, join them back through
`pd.merge(..., how='inner')` — which keeps the left row order but
replaces the index by a fresh positional one — and NaN out the rows
that fail the cutoff test (rows with NaN delta, mean or std fail it,
as every float comparison with NaN does). -/
def outlierRep (std_cutoff : ℚ) (f : DFrame) : DFrame :=
  let δ := deltaCol f.col
  let newCol := List.zipWith (fun x? d? =>
    match d?, omean δ, ovar δ with
    | some d, some m, some v => if cutoffCond std_cutoff d m v then x? else none
    | _, _, _ => none) f.col δ
  { index := (List.range f.col.length).map Int.ofNat
    col := newCol
    others := f.others }

/-- Shallow embedding of `outlier_to_nan` (ds.py:290-342) with
`groupby=None`: `reps` passes of the loop body over a copy of the
caller's frame. -/
def outlier_to_nan (f : DFrame) (std_cutoff : ℚ) (reps : ℕ) : DFrame :=
  (outlierRep std_cutoff)^[reps] f

/-- Shallow embedding of `pass_by_group` (ds.py:387-414): apply the
butter filter (`filt` stands for `butter_pass_filter`, a float IIR
filter that keeps the length) groupwise in sorted group order, write
the concatenated result positionally into the column, and
`reset_index(drop=True)`. -/
def pass_by_group (filt : List (Option ℚ) → List (Option ℚ))
    (keys : List ℚ) (f : DFrame) : DFrame :=
  let gs := List.insertionSort (· ≤ ·) keys.dedup
  { index := (List.range f.index.length).map Int.ofNat
    col := gs.flatMap (fun g =>
      filt (((keys.zip f.col).filter (fun r => decide (r.1 = g))).map Prod.snd))
    others := f.others }

/-- The local deviation of the claim, at position `j` of a NaN-free
column: half the sum of the absolute differences to the previous and
next points (clamped at the edges, as `shift(1).bfill` and
`shift(-1).ffill` repeat the boundary values). -/
def specDelta (xs : List ℚ) (j : ℕ) : ℚ :=
  (1/2) * (|xs.getD j 0 - xs.getD (j - 1) 0| +
    |xs.getD j 0 - xs.getD (j + 1) (xs.getD j 0)|)

/-- All local deviations of a NaN-free column. -/
def deltaList (xs : List ℚ) : List ℚ := (List.range xs.length).map (specDelta xs)

/-- Mean of the local deviations. -/
def deltaMean (xs : List ℚ) : ℚ := (deltaList xs).sum / (xs.length : ℚ)

/-- Sample variance (`ddof = 1`) of the local deviations; the standard
deviation the source compares against is its square root. -/
def deltaVar (xs : List ℚ) : ℚ :=
  ((deltaList xs).map (fun d => (d - deltaMean xs) ^ 2)).sum / ((xs.length : ℚ) - 1)

theorem interpolateLin_length (xs : List (Option ℚ)) :
    (interpolateLin xs).length = xs.length := by
  unfold interpolateLin
  rw [List.length_map, List.enum_length]

theorem shiftDown_length (xs : List (Option ℚ)) :
    (shiftDown xs).length = xs.length := by
  cases xs with
  | nil => rfl
  | cons x t =>
      show (none :: (x :: t).dropLast).length = (x :: t).length
      rw [List.length_cons, List.length_dropLast, List.length_cons]
      omega

theorem shiftUp_length (xs : List (Option ℚ)) :
    (shiftUp xs).length = xs.length := by
  cases xs with
  | nil => rfl
  | cons x t =>
      show (t ++ [none]).length = (x :: t).length
      rw [List.length_append, List.length_cons, List.length_cons, List.length_nil]

theorem bfill_length (xs : List (Option ℚ)) : (bfill xs).length = xs.length := by
  induction xs with
  | nil => rfl
  | cons x t ih =>
      show (_ :: bfill t).length = _
      rw [List.length_cons, ih, List.length_cons]

theorem ffillGo_length (p : Option ℚ) (xs : List (Option ℚ)) :
    (ffillGo p xs).length = xs.length := by
  induction xs generalizing p with
  | nil => rfl
  | cons x t ih =>
      cases x with
      | some v =>
          show (some v :: ffillGo (some v) t).length = _
          rw [List.length_cons, ih, List.length_cons]
      | none =>
          show (p :: ffillGo p t).length = _
          rw [List.length_cons, ih, List.length_cons]

theorem ffill_length (xs : List (Option ℚ)) : (ffill xs).length = xs.length :=
  ffillGo_length none xs

theorem deltaCol_length (xs : List (Option ℚ)) :
    (deltaCol xs).length = xs.length := by
  unfold deltaCol
  rw [List.length_zipWith, List.length_zip]
  rw [interpolateLin_length, bfill_length, shiftDown_length, interpolateLin_length,
    ffill_length, shiftUp_length, interpolateLin_length]
  omega

theorem outlierRep_col_length (c : ℚ) (f : DFrame) :
    (outlierRep c f).col.length = f.col.length := by
  show (List.zipWith _ f.col (deltaCol f.col)).length = _
  rw [List.length_zipWith, deltaCol_length]
  omega

theorem outlierRep_iterate_col_length (c : ℚ) (reps : ℕ) (f : DFrame) :
    ((outlierRep c)^[reps] f).col.length = f.col.length := by
  induction reps with
  | zero => rfl
  | succ k ih =>
      rw [Function.iterate_succ_apply', outlierRep_col_length, ih]

/-- C3 amended: `outlier_to_nan` (for at least one repetition, the
default being one) and `pass_by_group` do not keep the caller's row
index: both return frames carrying the fresh positional index
`0, 1, ..., n-1` (`outlier_to_nan` through `pd.merge`, which builds a
new `RangeIndex`, `pass_by_group` through `reset_index(drop=True)`),
so the input row index survives only when it already was the default
positional one. -/
theorem transforms_reset_index (f : DFrame) (c : ℚ) (reps : ℕ)
    (hreps : 1 ≤ reps) (filt : List (Option ℚ) → List (Option ℚ))
    (keys : List ℚ) (g : DFrame) :
    (outlier_to_nan f c reps).index = (List.range f.col.length).map Int.ofNat ∧
      (pass_by_group filt keys g).index =
        (List.range g.index.length).map Int.ofNat := by
  constructor
  · obtain ⟨k, rfl⟩ : ∃ k, reps = k + 1 := ⟨reps - 1, by omega⟩
    show ((outlierRep c)^[k + 1] f).index = _
    rw [Function.iterate_succ_apply']
    show (List.range ((outlierRep c)^[k] f).col.length).map Int.ofNat = _
    rw [outlierRep_iterate_col_length]
  · rfl

/-- Witness for the amended C3 theorem at concrete frames. -/
theorem transforms_reset_index_witness :
    1 ≤ 1 ∧
      ((outlier_to_nan ⟨[5, 6, 7], [some 1, some 2, some 3], []⟩ 3 1).index =
          (List.range 3).map Int.ofNat ∧
        (pass_by_group id [1, 1] ⟨[5, 6], [some 1, some 2], []⟩).index =
          (List.range 2).map Int.ofNat) :=
  ⟨le_refl 1,
    transforms_reset_index ⟨[5, 6, 7], [some 1, some 2, some 3], []⟩ 3 1
      (le_refl 1) id [1, 1] ⟨[5, 6], [some 1, some 2], []⟩⟩

/-- C3 counterexample: a frame whose index is not the default
positional one comes back from `outlier_to_nan` (and from
`pass_by_group`) with a different index, so these transforms do not
preserve the row index of their input. -/
theorem transforms_index_not_preserved :
    (outlier_to_nan ⟨[5, 6, 7], [some 1, some 2, some 3], []⟩ 3 1).index
        ≠ [5, 6, 7] ∧
      (pass_by_group id [1, 1] ⟨[5, 6], [some 1, some 2], []⟩).index ≠ [5, 6] := by
  constructor
  · show ((outlierRep 3)^[1] ⟨[5, 6, 7], [some 1, some 2, some 3], []⟩).index ≠ _
    rw [Function.iterate_one]
    decide
  · decide

theorem valids_map_some (l : List ℚ) : valids (l.map some) = l := by
  unfold valids
  rw [List.filterMap_map]
  simp

theorem deltaList_length (xs : List ℚ) : (deltaList xs).length = xs.length := by
  unfold deltaList
  rw [List.length_map, List.length_range]

theorem omean_map_some (l : List ℚ) (hl : l ≠ []) :
    omean (l.map some) = some (l.sum / (l.length : ℚ)) := by
  unfold omean osum ocount npDiv
  rw [valids_map_some]
  rw [if_neg]
  intro h
  exact hl (List.length_eq_zero.mp (by exact_mod_cast h))

theorem ovar_map_some (l : List ℚ) (h2 : 2 ≤ l.length) :
    ovar (l.map some)
      = some ((l.map (fun x => (x - l.sum / (l.length : ℚ)) ^ 2)).sum /
          ((l.length : ℚ) - 1)) := by
  unfold ovar
  rw [valids_map_some, if_neg (by omega)]

theorem interpolateLin_map_some (l : List ℚ) :
    interpolateLin (l.map some) = l.map some := by
  refine List.ext_getElem (by rw [interpolateLin_length]) ?_
  intro j h1 h2
  unfold interpolateLin
  rw [List.getElem_map, List.getElem_enum, List.getElem_map]

theorem bfill_map_some (l : List ℚ) : bfill (l.map some) = l.map some := by
  induction l with
  | nil => rfl
  | cons x t ih =>
      show some x :: bfill (t.map some) = _
      rw [ih]
      rfl

theorem bfill_shiftDown_some (x : ℚ) (t : List ℚ) (ht : t ≠ []) :
    bfill (shiftDown ((x :: t).map some)) = (x :: (x :: t).dropLast).map some := by
  show bfill (none :: ((x :: t).map some).dropLast) = _
  rw [← List.map_dropLast]
  show (bfill (((x :: t).dropLast).map some)).headD none ::
      bfill (((x :: t).dropLast).map some) = _
  rw [bfill_map_some]
  have hd : (((x :: t).dropLast).map some).headD none = some x := by
    cases t with
    | nil => exact absurd rfl ht
    | cons y u => rfl
  rw [hd]
  rfl

theorem ffillGo_map_some_append (t : List ℚ) (p : Option ℚ) (ht : t ≠ []) :
    ffillGo p ((t.map some) ++ [none]) = (t ++ [t.getLastD 0]).map some := by
  induction t generalizing p with
  | nil => exact absurd rfl ht
  | cons y u ih =>
      cases u with
      | nil => rfl
      | cons z w =>
          show some y :: ffillGo (some y) (((z :: w).map some) ++ [none]) = _
          rw [ih (some y) (List.cons_ne_nil z w)]
          rfl

theorem ffill_shiftUp_some (x : ℚ) (t : List ℚ) (ht : t ≠ []) :
    ffill (shiftUp ((x :: t).map some)) = (t ++ [t.getLastD 0]).map some := by
  show ffillGo none ((t.map some) ++ [none]) = _
  exact ffillGo_map_some_append t none ht

theorem deltaCol_map_some (xs : List ℚ) (h2 : 2 ≤ xs.length) :
    deltaCol (xs.map some) = (deltaList xs).map some := by
  obtain ⟨x, t, rfl⟩ : ∃ x t, xs = x :: t := by
    cases xs with
    | nil => simp at h2
    | cons a b => exact ⟨a, b, rfl⟩
  have ht : t ≠ [] := by
    intro h
    rw [h] at h2
    simp at h2
  unfold deltaCol
  rw [interpolateLin_map_some, bfill_shiftDown_some x t ht, ffill_shiftUp_some x t ht]
  rw [List.zip_map, List.zipWith_map]
  have hfun : (fun (a : ℚ × ℚ) (b : ℚ) =>
      oScale (1/2) (oAdd (oAbs (oSub (Prod.map some some a).1 (Prod.map some some a).2))
        (oAbs (oSub (Prod.map some some a).1 (some b)))))
      = fun (a : ℚ × ℚ) (b : ℚ) => some ((1/2) * (|a.1 - a.2| + |a.1 - b|)) := by
    funext a b
    rfl
  rw [hfun, ← List.map_zipWith]
  congr 1
  refine List.ext_getElem ?_ ?_
  · rw [List.length_zipWith, List.length_zip, deltaList_length]
    rw [List.length_cons, List.length_cons, List.length_dropLast, List.length_cons,
      List.length_append]
    simp
  · intro j hj1 hj2
    rw [List.getElem_zipWith, List.getElem_zip]
    have hjlen : j < t.length + 1 := by
      rw [deltaList_length, List.length_cons] at hj2
      exact hj2
    unfold deltaList
    rw [List.getElem_map, List.getElem_range]
    unfold specDelta
    have hb1 : j < (x :: t).length := by
      rw [List.length_cons]
      omega
    have hb2 : j < (x :: (x :: t).dropLast).length := by
      rw [List.length_cons, List.length_dropLast, List.length_cons]
      omega
    have hb3 : j < (t ++ [t.getLastD 0]).length := by
      rw [List.length_append, List.length_cons]
      simp
      omega
    have hxj : (x :: t).getD j 0 = (x :: t)[j] := by
      rw [List.getD_eq_getElem?_getD, List.getElem?_eq_getElem]
      rfl
    have hprev : (x :: (x :: t).dropLast)[j]
        = (x :: t).getD (j - 1) 0 := by
      cases j with
      | zero =>
          show x = (x :: t).getD 0 0
          rfl
      | succ k =>
          rw [List.getElem_cons_succ, List.getElem_dropLast]
          rw [List.getD_eq_getElem?_getD, List.getElem?_eq_getElem (by
            rw [List.length_cons]
            omega)]
          rfl
    have hnext : (t ++ [t.getLastD 0])[j]
        = (x :: t).getD (j + 1) ((x :: t).getD j 0) := by
      rw [List.getElem_append]
      by_cases hjt : j < t.length
      · rw [dif_pos hjt]
        rw [List.getD_eq_getElem?_getD, List.getElem?_eq_getElem (by
          rw [List.length_cons]; omega)]
        rw [List.getElem_cons_succ]
        rfl
      · have hjeq : j = t.length := by omega
        rw [dif_neg hjt]
        subst hjeq
        simp only [Nat.sub_self]
        show t.getLastD 0 = _
        have hlen1 : t.length - 1 + 1 = t.length := by
          have : t.length ≠ 0 := fun h => ht (List.length_eq_zero.mp h)
          omega
        rw [List.getD_eq_getElem?_getD (x :: t) (t.length + 1),
          List.getElem?_eq_none (by rw [List.length_cons])]
        show t.getLastD 0 = (x :: t).getD t.length 0
        rw [List.getD_eq_getElem?_getD]
        have hidx : (x :: t)[t.length]? = t[t.length - 1]? := by
          conv_lhs => rw [← hlen1]
          exact List.getElem?_cons_succ
        rw [hidx, List.getElem?_eq_getElem (by omega)]
        rw [List.getLastD_eq_getLast?, List.getLast?_eq_getElem?,
          List.getElem?_eq_getElem (by omega)]
    rw [hprev, hnext, hxj]

/-- Squaring both sides of the cutoff comparison: for a nonnegative
cutoff and variance, the squared rational test of the embedding is the
float test `|t| <= c * sqrt v` of the source. -/
theorem sq_le_iff_abs_le_sqrt (t c v : ℚ) (hc : 0 ≤ c) (hv : 0 ≤ v) :
    (t ^ 2 ≤ c ^ 2 * v) ↔ |(t : ℝ)| ≤ (c : ℝ) * Real.sqrt ((v : ℚ) : ℝ) := by
  have h1 : ((c : ℝ)) * Real.sqrt ((v : ℚ) : ℝ)
      = Real.sqrt ((c : ℝ) ^ 2 * ((v : ℚ) : ℝ)) := by
    rw [Real.sqrt_mul (by positivity), Real.sqrt_sq (by exact_mod_cast hc)]
  rw [← Real.sqrt_sq_eq_abs, h1, Real.sqrt_le_sqrt_iff (by positivity)]
  constructor
  · intro h
    exact_mod_cast h
  · intro h
    exact_mod_cast h

theorem deltaVar_nonneg (xs : List ℚ) (h2 : 2 ≤ xs.length) : 0 ≤ deltaVar xs := by
  unfold deltaVar
  apply div_nonneg
  · apply List.sum_nonneg
    intro y hy
    obtain ⟨d, _, hd⟩ := List.mem_map.mp hy
    rw [← hd]
    positivity
  · have hcast : (2 : ℚ) ≤ (xs.length : ℚ) := by exact_mod_cast h2
    linarith

theorem deltaList_ne_nil (xs : List ℚ) (h2 : 2 ≤ xs.length) :
    (deltaList xs).map some ≠ [] := by
  intro h
  have hlen := deltaList_length xs
  rw [List.map_eq_nil_iff.mp h] at hlen
  simp at hlen
  omega

theorem omean_deltaList (xs : List ℚ) (h2 : 2 ≤ xs.length) :
    omean ((deltaList xs).map some) = some (deltaMean xs) := by
  rw [omean_map_some _ (by
    intro h
    have hlen := deltaList_length xs
    rw [h] at hlen
    simp at hlen
    omega)]
  unfold deltaMean
  rw [deltaList_length]

theorem ovar_deltaList (xs : List ℚ) (h2 : 2 ≤ xs.length) :
    ovar ((deltaList xs).map some) = some (deltaVar xs) := by
  rw [ovar_map_some _ (by rw [deltaList_length]; omega)]
  unfold deltaVar deltaMean
  rw [deltaList_length]

/-- C5: with the default single group and one repetition, on a NaN-free
column with at least two rows and a nonnegative cutoff,
`outlier_to_nan` sets a value to NaN exactly when its local deviation
(half the sum of absolute differences to the previous and next point)
lies more than `std_cutoff` standard deviations away from the mean
deviation; all other columns and every non-flagged value are
unchanged. -/
theorem outlier_to_nan_flags (xs : List ℚ) (idx : List ℤ)
    (others : List (String × List (Option ℚ))) (c : ℚ) (hc : 0 ≤ c)
    (h2 : 2 ≤ xs.length) :
    (outlier_to_nan ⟨idx, xs.map some, others⟩ c 1).col
        = (List.range xs.length).map (fun j =>
            if (specDelta xs j - deltaMean xs) ^ 2 ≤ c ^ 2 * deltaVar xs
            then some (xs.getD j 0) else none) ∧
      (outlier_to_nan ⟨idx, xs.map some, others⟩ c 1).others = others ∧
      ∀ j < xs.length,
        ((outlier_to_nan ⟨idx, xs.map some, others⟩ c 1).col.getD j none = none ↔
          (c : ℝ) * Real.sqrt ((deltaVar xs : ℚ) : ℝ)
            < |((specDelta xs j - deltaMean xs : ℚ) : ℝ)|) := by
  have hiter : outlier_to_nan ⟨idx, xs.map some, others⟩ c 1
      = outlierRep c ⟨idx, xs.map some, others⟩ := by
    unfold outlier_to_nan
    rw [Function.iterate_one]
  have hcol : (outlierRep c ⟨idx, xs.map some, others⟩).col
      = (List.range xs.length).map (fun j =>
          if (specDelta xs j - deltaMean xs) ^ 2 ≤ c ^ 2 * deltaVar xs
          then some (xs.getD j 0) else none) := by
    show List.zipWith _ (xs.map some) (deltaCol (xs.map some)) = _
    rw [deltaCol_map_some xs h2, List.zipWith_map]
    simp only [omean_deltaList xs h2, ovar_deltaList xs h2]
    refine List.ext_getElem ?_ ?_
    · rw [List.length_zipWith, deltaList_length, List.length_map, List.length_range]
      omega
    · intro j hj1 hj2
      rw [List.getElem_zipWith, List.getElem_map, List.getElem_range]
      have hjn : j < xs.length := by
        rw [List.length_zipWith, deltaList_length] at hj1
        omega
      have hdj : j < (deltaList xs).length := by
        rw [deltaList_length]
        omega
      have hdl : (deltaList xs)[j] = specDelta xs j := by
        unfold deltaList
        rw [List.getElem_map, List.getElem_range]
      have hgd : xs.getD j 0 = xs[j] := by
        rw [List.getD_eq_getElem?_getD, List.getElem?_eq_getElem hjn]
        rfl
      show (match (some ((deltaList xs)[j]) : Option ℚ),
          (some (deltaMean xs) : Option ℚ), (some (deltaVar xs) : Option ℚ) with
        | some d, some m, some v =>
            if cutoffCond c d m v then (some (xs[j]) : Option ℚ) else none
        | _, _, _ => none) = _
      show (if cutoffCond c ((deltaList xs)[j])
          (deltaMean xs) (deltaVar xs) then (some (xs[j]) : Option ℚ) else none) = _
      rw [hdl, hgd]
      unfold cutoffCond
      rw [if_pos hc]
      by_cases hP : (specDelta xs j - deltaMean xs) ^ 2 ≤ c ^ 2 * deltaVar xs
      · rw [if_pos (by exact decide_eq_true hP), if_pos hP]
      · rw [if_neg (by simpa using hP), if_neg hP]
  refine ⟨by rw [hiter, hcol], by rw [hiter]; rfl, ?_⟩
  intro j hj
  rw [hiter, hcol]
  rw [List.getD_eq_getElem?_getD, List.getElem?_eq_getElem (by
    rw [List.length_map, List.length_range]; omega)]
  rw [List.getElem_map, List.getElem_range, Option.getD_some]
  rw [show ((c : ℝ) * Real.sqrt ((deltaVar xs : ℚ) : ℝ)
      < |((specDelta xs j - deltaMean xs : ℚ) : ℝ)|)
      = ¬ (|((specDelta xs j - deltaMean xs : ℚ) : ℝ)|
        ≤ (c : ℝ) * Real.sqrt ((deltaVar xs : ℚ) : ℝ)) from by rw [not_le]]
  rw [← sq_le_iff_abs_le_sqrt _ _ _ hc (deltaVar_nonneg xs h2)]
  by_cases hP : (specDelta xs j - deltaMean xs) ^ 2 ≤ c ^ 2 * deltaVar xs
  · rw [if_pos hP]
    simp [hP]
  · rw [if_neg hP]
    simp [hP]

/-- Witness for C5 at a concrete four-row column with the default
cutoff 3. -/
theorem outlier_to_nan_flags_witness :
    (0 : ℚ) ≤ 3 ∧ 2 ≤ ([0, 10, 0, 10] : List ℚ).length ∧
      ((outlier_to_nan ⟨[0, 1, 2, 3], ([0, 10, 0, 10] : List ℚ).map some, []⟩ 3 1).col
          = (List.range ([0, 10, 0, 10] : List ℚ).length).map (fun j =>
              if (specDelta [0, 10, 0, 10] j - deltaMean [0, 10, 0, 10]) ^ 2
                  ≤ (3 : ℚ) ^ 2 * deltaVar [0, 10, 0, 10]
              then some (([0, 10, 0, 10] : List ℚ).getD j 0) else none) ∧
        (outlier_to_nan ⟨[0, 1, 2, 3], ([0, 10, 0, 10] : List ℚ).map some, []⟩ 3 1).others
          = [] ∧
        ∀ j < ([0, 10, 0, 10] : List ℚ).length,
          ((outlier_to_nan ⟨[0, 1, 2, 3], ([0, 10, 0, 10] : List ℚ).map some, []⟩ 3 1).col.getD
              j none = none ↔
            ((3 : ℚ) : ℝ) * Real.sqrt ((deltaVar [0, 10, 0, 10] : ℚ) : ℝ)
              < |((specDelta [0, 10, 0, 10] j - deltaMean [0, 10, 0, 10] : ℚ) : ℝ)|)) :=
  ⟨by norm_num, by norm_num,
    outlier_to_nan_flags [0, 10, 0, 10] [0, 1, 2, 3] [] 3 (by norm_num) (by norm_num)⟩

/-! ## Frame-effect model (C4): outlier_to_nan ds.py:303-304, lr ds.py:1592-1662

Python frames are heap objects, so whether a helper mutates its
caller's frame is a question of which object each pandas call writes
to.  The store below holds every frame object; the embeddings perform
one store operation per source line that touches a frame: an
allocation for each pandas call documented to return a new object
(`copy()`, boolean-mask selection, `pd.merge`, `.drop`, `groupby`
iteration, the final `pd.DataFrame(...)`), and an in-place write for
each column assignment `frame[col] = ...`.  The column contents
written are irrelevant to the aliasing claim (they are the numeric
transforms embedded elsewhere in this file) and enter as opaque frame
transformations. -/

/-- A pandas frame object: named float columns. -/
abbrev PyFrame : Type := List (String × List (Option ℚ))

/-- The heap of frame objects, addressed by allocation order. -/
abbrev Store : Type := List PyFrame

/-- Allocate a new frame object, returning its reference. -/
def alloc (st : Store) (f : PyFrame) : Store × ℕ := (st ++ [f], st.length)

/-- In-place write to the frame object behind a reference. -/
def writeAt (st : Store) (r : ℕ) (f : PyFrame) : Store := st.set r f

/-- Dereference a frame object. -/
def readAt (st : Store) (r : ℕ) : PyFrame := st.getD r []

theorem readAt_append (st : Store) (f : PyFrame) (i : ℕ) (h : i < st.length) :
    readAt (st ++ [f]) i = readAt st i :=
  List.getD_append _ _ _ _ h

theorem readAt_set_lt (st : Store) (r i : ℕ) (f : PyFrame) (h : i < r) :
    readAt (writeAt st r f) i = readAt st i := by
  unfold readAt writeAt
  rw [List.getD_eq_getElem?_getD, List.getD_eq_getElem?_getD,
    List.getElem?_set_ne (by omega)]

/-- The body of the `for _rep in range(reps)` loop of `outlier_to_nan`
as a store transformer, iterated `n` times on (store, current frame
reference): the `_dummy` / `_dummy_delta` assignments write to the
current frame (`setCols`), then `_df = pd.merge(...)` and
`_df = _df.drop(...)` each bind `_df` to a fresh frame
(`mergeCutoff`, `dropTemp`). -/
def outlierLoop (setCols mergeCutoff dropTemp : PyFrame → PyFrame) :
    ℕ → Store × ℕ → Store × ℕ
  | 0, acc => acc
  | n + 1, acc =>
      let s1 := writeAt acc.1 acc.2 (setCols (readAt acc.1 acc.2))
      let a2 := alloc s1 (mergeCutoff (readAt s1 acc.2))
      let a3 := alloc a2.1 (dropTemp (readAt a2.1 a2.2))
      outlierLoop setCols mergeCutoff dropTemp n a3

/-- Store effect of `outlier_to_nan` (ds.py:290-342) called on the
frame at `r`: `_df = df.copy(); del df` allocates a copy (`copyOf`);
the `__groupby` dummy assignment writes to the copy (`setCols`); the
loop body runs `reps` times; the final `.drop(\'__groupby\', ...)`
builds a fresh frame.  Returns the store and the reference of the
returned frame. -/
def outlierToNanEffect (copyOf setCols mergeCutoff dropTemp : PyFrame → PyFrame)
    (reps : ℕ) (st : Store) (r : ℕ) : Store × ℕ :=
  let a1 := alloc st (copyOf (readAt st r))
  let st2 := writeAt a1.1 a1.2 (setCols (readAt a1.1 a1.2))
  let fin := outlierLoop setCols mergeCutoff dropTemp reps (st2, a1.2)
  alloc fin.1 (dropTemp (readAt fin.1 fin.2))

/-- The group loop of `lr` as a store transformer: each `groupby`
iteration frame `_df_i` is a new object (`sub n` applied to the
working frame at `rc`), into which the fit and error columns are
written (`fit`). -/
def lrLoop (fit : PyFrame → PyFrame) (sub : ℕ → PyFrame → PyFrame) (rc : ℕ) :
    ℕ → Store → Store
  | 0, s => s
  | n + 1, s =>
      let a2 := alloc s (sub n (readAt s rc))
      lrLoop fit sub rc n (writeAt a2.1 a2.2 (fit (readAt a2.1 a2.2)))

/-- Store effect of `lr` (ds.py:1592-1662) called on the frame at `r`:
`_df = df[np.isfinite(df[x]) & np.isfinite(df[y])]` — boolean-mask
selection returns a new object in pandas — allocates (`maskFinite`);
`_df[\'_dummy\'] = 1` and `_df[_x_i] = _df[x]` write to that copy
(`setCols`); the group loop runs over the `groups` group frames; the
returned `_df_out` is a fresh frame built from the results dictionary
(`outFrame`). -/
def lrEffect (maskFinite setCols fitCols outFrame : PyFrame → PyFrame)
    (subFrame : ℕ → PyFrame → PyFrame) (groups : ℕ)
    (st : Store) (r : ℕ) : Store × ℕ :=
  let a1 := alloc st (maskFinite (readAt st r))
  let st2 := writeAt a1.1 a1.2 (setCols (readAt a1.1 a1.2))
  let st3 := lrLoop fitCols subFrame a1.2 groups st2
  alloc st3 (outFrame (readAt st3 a1.2))

theorem outlierLoop_preserves (sc mc dt : PyFrame → PyFrame) :
    ∀ (n : ℕ) (acc : Store × ℕ) (j : ℕ), j < acc.2 → acc.2 ≤ acc.1.length →
      (outlierLoop sc mc dt n acc).1.getD j [] = acc.1.getD j [] := by
  intro n
  induction n with
  | zero =>
      intro acc j _ _
      rfl
  | succ n ih =>
      intro acc j hj hle
      show (outlierLoop sc mc dt n
        (alloc (alloc (writeAt acc.1 acc.2 (sc (readAt acc.1 acc.2)))
            (mc (readAt (writeAt acc.1 acc.2 (sc (readAt acc.1 acc.2))) acc.2))).1
          (dt (readAt (alloc (writeAt acc.1 acc.2 (sc (readAt acc.1 acc.2)))
                (mc (readAt (writeAt acc.1 acc.2 (sc (readAt acc.1 acc.2))) acc.2))).1
              (alloc (writeAt acc.1 acc.2 (sc (readAt acc.1 acc.2)))
                (mc (readAt (writeAt acc.1 acc.2 (sc (readAt acc.1 acc.2))) acc.2))).2)))).1.getD
          j [] = acc.1.getD j []
      generalize sc (readAt acc.1 acc.2) = q1
      generalize mc (readAt (writeAt acc.1 acc.2 q1) acc.2) = q2
      generalize dt (readAt (alloc (writeAt acc.1 acc.2 q1) q2).1
        (alloc (writeAt acc.1 acc.2 q1) q2).2) = q3
      show (outlierLoop sc mc dt n ((acc.1.set acc.2 q1 ++ [q2]) ++ [q3],
        (acc.1.set acc.2 q1 ++ [q2]).length)).1.getD j [] = acc.1.getD j []
      rw [ih ((acc.1.set acc.2 q1 ++ [q2]) ++ [q3],
          (acc.1.set acc.2 q1 ++ [q2]).length) j
        (by
          show j < (acc.1.set acc.2 q1 ++ [q2]).length
          simp only [List.length_append, List.length_set, List.length_cons,
            List.length_nil]
          omega)
        (by
          show (acc.1.set acc.2 q1 ++ [q2]).length
            ≤ ((acc.1.set acc.2 q1 ++ [q2]) ++ [q3]).length
          simp only [List.length_append, List.length_set, List.length_cons,
            List.length_nil]
          omega)]
      show ((acc.1.set acc.2 q1 ++ [q2]) ++ [q3]).getD j [] = acc.1.getD j []
      rw [List.getD_append _ _ _ _ (by
        simp only [List.length_append, List.length_set, List.length_cons,
          List.length_nil]
        omega)]
      rw [List.getD_append _ _ _ _ (by
        simp only [List.length_set]
        omega)]
      rw [List.getD_eq_getElem?_getD, List.getElem?_set_ne (by omega),
        ← List.getD_eq_getElem?_getD]

theorem outlierLoop_length (sc mc dt : PyFrame → PyFrame) :
    ∀ (n : ℕ) (acc : Store × ℕ),
      acc.1.length ≤ (outlierLoop sc mc dt n acc).1.length := by
  intro n
  induction n with
  | zero =>
      intro acc
      exact le_refl _
  | succ n ih =>
      intro acc
      show acc.1.length ≤ (outlierLoop sc mc dt n
        (alloc (alloc (writeAt acc.1 acc.2 (sc (readAt acc.1 acc.2)))
            (mc (readAt (writeAt acc.1 acc.2 (sc (readAt acc.1 acc.2))) acc.2))).1
          (dt (readAt (alloc (writeAt acc.1 acc.2 (sc (readAt acc.1 acc.2)))
                (mc (readAt (writeAt acc.1 acc.2 (sc (readAt acc.1 acc.2))) acc.2))).1
              (alloc (writeAt acc.1 acc.2 (sc (readAt acc.1 acc.2)))
                (mc (readAt (writeAt acc.1 acc.2 (sc (readAt acc.1 acc.2))) acc.2))).2)))).1.length
      refine le_trans ?_ (ih _)
      show acc.1.length ≤ ((acc.1.set acc.2 (sc (readAt acc.1 acc.2)) ++ [_]) ++ [_]).length
      simp only [List.length_append, List.length_set, List.length_cons, List.length_nil]
      omega

theorem lrLoop_preserves (fit : PyFrame → PyFrame) (sub : ℕ → PyFrame → PyFrame)
    (rc : ℕ) : ∀ (n : ℕ) (s : Store) (j : ℕ), j < s.length →
      (lrLoop fit sub rc n s).getD j [] = s.getD j [] := by
  intro n
  induction n with
  | zero =>
      intro s j _
      rfl
  | succ n ih =>
      intro s j hj
      show (lrLoop fit sub rc n
        (writeAt (alloc s (sub n (readAt s rc))).1 (alloc s (sub n (readAt s rc))).2
          (fit (readAt (alloc s (sub n (readAt s rc))).1
            (alloc s (sub n (readAt s rc))).2)))).getD j [] = s.getD j []
      generalize sub n (readAt s rc) = q1
      generalize fit (readAt (alloc s q1).1 (alloc s q1).2) = q2
      show (lrLoop fit sub rc n ((s ++ [q1]).set s.length q2)).getD j [] = s.getD j []
      rw [ih ((s ++ [q1]).set s.length q2) j (by
        simp only [List.length_set, List.length_append, List.length_cons,
          List.length_nil]
        omega)]
      rw [List.getD_eq_getElem?_getD, List.getElem?_set_ne (by omega),
        ← List.getD_eq_getElem?_getD]
      rw [List.getD_append _ _ _ _ hj]

theorem lrLoop_length (fit : PyFrame → PyFrame) (sub : ℕ → PyFrame → PyFrame)
    (rc : ℕ) : ∀ (n : ℕ) (s : Store), s.length ≤ (lrLoop fit sub rc n s).length := by
  intro n
  induction n with
  | zero =>
      intro s
      exact le_refl _
  | succ n ih =>
      intro s
      show s.length ≤ (lrLoop fit sub rc n
        (writeAt (alloc s (sub n (readAt s rc))).1 (alloc s (sub n (readAt s rc))).2
          (fit (readAt (alloc s (sub n (readAt s rc))).1
            (alloc s (sub n (readAt s rc))).2)))).length
      refine le_trans ?_ (ih _)
      show s.length ≤ ((s ++ [sub n (readAt s rc)]).set s.length _).length
      simp only [List.length_set, List.length_append, List.length_cons, List.length_nil]
      omega

theorem outlierToNanEffect_preserves
    (copyOf setCols mergeCutoff dropTemp : PyFrame → PyFrame)
    (reps : ℕ) (st : Store) (r : ℕ) (i : ℕ) (hi : i < st.length) :
    readAt (outlierToNanEffect copyOf setCols mergeCutoff dropTemp reps st r).1 i
      = readAt st i := by
  show ((outlierLoop setCols mergeCutoff dropTemp reps
      ((st ++ [copyOf (readAt st r)]).set st.length
        (setCols (readAt (st ++ [copyOf (readAt st r)]) st.length)), st.length)).1
      ++ [dropTemp (readAt
        (outlierLoop setCols mergeCutoff dropTemp reps
          ((st ++ [copyOf (readAt st r)]).set st.length
            (setCols (readAt (st ++ [copyOf (readAt st r)]) st.length)), st.length)).1
        (outlierLoop setCols mergeCutoff dropTemp reps
          ((st ++ [copyOf (readAt st r)]).set st.length
            (setCols (readAt (st ++ [copyOf (readAt st r)]) st.length)), st.length)).2)]).getD
      i [] = st.getD i []
  have hst2len : ((st ++ [copyOf (readAt st r)]).set st.length
      (setCols (readAt (st ++ [copyOf (readAt st r)]) st.length))).length
      = st.length + 1 := by
    simp only [List.length_set, List.length_append, List.length_cons, List.length_nil]
  have hlooplen := outlierLoop_length setCols mergeCutoff dropTemp reps
    ((st ++ [copyOf (readAt st r)]).set st.length
      (setCols (readAt (st ++ [copyOf (readAt st r)]) st.length)), st.length)
  rw [List.getD_append _ _ _ _ (by
    have := hlooplen
    rw [hst2len] at this
    omega)]
  rw [outlierLoop_preserves setCols mergeCutoff dropTemp reps
    ((st ++ [copyOf (readAt st r)]).set st.length
      (setCols (readAt (st ++ [copyOf (readAt st r)]) st.length)), st.length) i
    (by omega) (by rw [hst2len]; omega)]
  show ((st ++ [copyOf (readAt st r)]).set st.length
    (setCols (readAt (st ++ [copyOf (readAt st r)]) st.length))).getD i [] = st.getD i []
  rw [List.getD_eq_getElem?_getD, List.getElem?_set_ne (by omega),
    ← List.getD_eq_getElem?_getD]
  rw [List.getD_append _ _ _ _ hi]

theorem lrEffect_preserves
    (maskFinite setCols fitCols outFrame : PyFrame → PyFrame)
    (subFrame : ℕ → PyFrame → PyFrame) (groups : ℕ)
    (st : Store) (r : ℕ) (i : ℕ) (hi : i < st.length) :
    readAt (lrEffect maskFinite setCols fitCols outFrame subFrame groups st r).1 i
      = readAt st i := by
  show ((lrLoop fitCols subFrame st.length groups
      ((st ++ [maskFinite (readAt st r)]).set st.length
        (setCols (readAt (st ++ [maskFinite (readAt st r)]) st.length))))
      ++ [outFrame (readAt (lrLoop fitCols subFrame st.length groups
        ((st ++ [maskFinite (readAt st r)]).set st.length
          (setCols (readAt (st ++ [maskFinite (readAt st r)]) st.length)))) st.length)]).getD
      i [] = st.getD i []
  have hst2len : ((st ++ [maskFinite (readAt st r)]).set st.length
      (setCols (readAt (st ++ [maskFinite (readAt st r)]) st.length))).length
      = st.length + 1 := by
    simp only [List.length_set, List.length_append, List.length_cons, List.length_nil]
  have hlooplen := lrLoop_length fitCols subFrame st.length groups
    ((st ++ [maskFinite (readAt st r)]).set st.length
      (setCols (readAt (st ++ [maskFinite (readAt st r)]) st.length)))
  rw [List.getD_append _ _ _ _ (by
    have := hlooplen
    rw [hst2len] at this
    omega)]
  rw [lrLoop_preserves fitCols subFrame st.length groups
    ((st ++ [maskFinite (readAt st r)]).set st.length
      (setCols (readAt (st ++ [maskFinite (readAt st r)]) st.length))) i
    (by rw [hst2len]; omega)]
  show ((st ++ [maskFinite (readAt st r)]).set st.length
    (setCols (readAt (st ++ [maskFinite (readAt st r)]) st.length))).getD i []
    = st.getD i []
  rw [List.getD_eq_getElem?_getD, List.getElem?_set_ne (by omega),
    ← List.getD_eq_getElem?_getD]
  rw [List.getD_append _ _ _ _ hi]

/-- C4: neither `outlier_to_nan` nor `lr` mutates the caller's frame:
`outlier_to_nan` copies the input first (`_df = df.copy(); del df`)
and writes only to that copy and to the fresh frames returned by
`merge` and `drop`; `lr` works on the new object returned by
boolean-mask selection and on the fresh per-group frames; so after the
call the frame behind the caller's reference is unchanged — same
columns, same values. -/
theorem helpers_leave_caller_frame_unchanged
    (copyOf setCols mergeCutoff dropTemp : PyFrame → PyFrame) (reps : ℕ)
    (maskFinite setCols2 fitCols outFrame : PyFrame → PyFrame)
    (subFrame : ℕ → PyFrame → PyFrame) (groups : ℕ)
    (st : Store) (r : ℕ) (hr : r < st.length) :
    readAt (outlierToNanEffect copyOf setCols mergeCutoff dropTemp reps st r).1 r
        = readAt st r ∧
      readAt (lrEffect maskFinite setCols2 fitCols outFrame subFrame groups st r).1 r
        = readAt st r :=
  ⟨outlierToNanEffect_preserves copyOf setCols mergeCutoff dropTemp reps st r r hr,
    lrEffect_preserves maskFinite setCols2 fitCols outFrame subFrame groups st r r hr⟩

/-- Witness for C4 at a concrete one-frame store. -/
theorem helpers_leave_caller_frame_unchanged_witness :
    0 < ([[("a", [some 1])]] : Store).length ∧
      (readAt (outlierToNanEffect id id id id 1 [[("a", [some 1])]] 0).1 0
          = readAt [[("a", [some 1])]] 0 ∧
        readAt (lrEffect id id id id (fun _ f => f) 2 [[("a", [some 1])]] 0).1 0
          = readAt [[("a", [some 1])]] 0) :=
  ⟨by norm_num,
    helpers_leave_caller_frame_unchanged id id id id 1 id id id id
      (fun _ f => f) 2 [[("a", [some 1])]] 0 (by norm_num)⟩

/-! ## quantile_split on a uniform series (C1) -/

theorem roundHalfEven_intCast (z : ℤ) : roundHalfEven (z : ℚ) = z := by
  unfold roundHalfEven
  rw [Int.floor_intCast]
  rw [if_pos ?_]
  rw [sub_self]
  norm_num

theorem roundHalfEven_natCast (m : ℕ) : roundHalfEven (m : ℚ) = m := by
  rw [show ((m : ℕ) : ℚ) = ((m : ℤ) : ℚ) from by push_cast; rfl]
  rw [roundHalfEven_intCast]

theorem npRound1_div10 (m : ℕ) : npRound1 ((m : ℚ) / 10) = (m : ℚ) / 10 := by
  unfold npRound1
  rw [div_mul_cancel₀ _ (by norm_num : (10 : ℚ) ≠ 0), roundHalfEven_natCast]
  push_cast
  ring

/-- For one- or two-digit naturals, rounding to two significant digits
changes nothing. -/
theorem round_signif_nat_small (k : ℕ) (hk : k < 100) :
    round_signif (k : ℚ) 2 = k := by
  by_cases hk0 : k = 0
  · subst hk0
    unfold round_signif
    rw [if_pos (by norm_num)]
    norm_num
  · unfold round_signif
    rw [if_neg (by exact_mod_cast hk0)]
    have habs : |(k : ℚ)| = (k : ℚ) := abs_of_nonneg (by positivity)
    have h1le : (1 : ℚ) ≤ (k : ℚ) := by
      have : 1 ≤ k := by omega
      exact_mod_cast this
    have hfloor : (⌊(k : ℚ)⌋).toNat = k := by
      rw [show ((k : ℕ) : ℚ) = ((k : ℤ) : ℚ) from by push_cast; rfl, Int.floor_intCast]
      rfl
    have hlog : Nat.log 10 k < 2 :=
      (Nat.lt_pow_iff_log_lt (by norm_num) hk0).mp (by norm_num; omega)
    rw [habs]
    rw [show log10floor (k : ℚ) = (Nat.log 10 k : ℤ) from by
      unfold log10floor
      rw [if_pos h1le, hfloor]]
    rcases (by omega : Nat.log 10 k = 0 ∨ Nat.log 10 k = 1) with hl | hl
    · rw [hl]
      norm_num
      rw [show ((k : ℚ) * 10) = ((10 * k : ℕ) : ℚ) from by push_cast; ring]
      rw [roundHalfEven_natCast]
      push_cast
      field_simp
    · rw [hl]
      norm_num
      rw [roundHalfEven_natCast]
      push_cast
      rfl

/-- The series of claim C1: 100 uniformly spaced values. -/
def uniformSeries (a d : ℚ) : List ℚ :=
  (List.range 100).map (fun k : ℕ => a + d * (k : ℚ))

theorem uniformSeries_length (a d : ℚ) : (uniformSeries a d).length = 100 := by
  unfold uniformSeries
  rw [List.length_map, List.length_range]

theorem uniformSeries_getElem (a d : ℚ) (k : ℕ)
    (hk : k < (uniformSeries a d).length) :
    (uniformSeries a d)[k] = a + d * k := by
  unfold uniformSeries
  rw [List.getElem_map, List.getElem_range]

theorem uniformSeries_sorted (a d : ℚ) (hd : 0 ≤ d) :
    List.Sorted (· ≤ ·) (uniformSeries a d) := by
  unfold uniformSeries List.Sorted
  rw [List.pairwise_map]
  refine (List.pairwise_lt_range 100).imp ?_
  intro i j hij
  have : (i : ℚ) ≤ (j : ℚ) := by exact_mod_cast le_of_lt hij
  nlinarith

theorem uniformSeries_nodup (a d : ℚ) (hd : 0 < d) :
    (uniformSeries a d).Nodup := by
  unfold uniformSeries
  refine List.Nodup.map ?_ (List.nodup_range 100)
  intro i j hij
  have hij' : a + d * (i : ℚ) = a + d * (j : ℚ) := hij
  have hmul : d * (i : ℚ) = d * (j : ℚ) := by linarith
  have : (i : ℚ) = (j : ℚ) := mul_left_cancel₀ (ne_of_gt hd) hmul
  exact_mod_cast this

theorem uniformSeries_max (a d : ℚ) (hd : 0 ≤ d) :
    (uniformSeries a d).max? = some (a + d * 99) := by
  haveI : Std.Antisymm (fun x1 x2 : ℚ => x1 ≤ x2) := ⟨fun h1 h2 => le_antisymm h1 h2⟩
  rw [List.max?_eq_some_iff (fun x => le_refl x) (fun x y => max_choice x y)
    (fun x y z => max_le_iff)]
  constructor
  · unfold uniformSeries
    exact List.mem_map.mpr ⟨99, List.mem_range.mpr (by omega), by norm_num⟩
  · intro b hb
    unfold uniformSeries at hb
    obtain ⟨k, hk, rfl⟩ := List.mem_map.mp hb
    rw [List.mem_range] at hk
    have hk99 : (k : ℚ) ≤ 99 := by exact_mod_cast by omega
    nlinarith

/-- The `np.quantile` value on the 100-point uniform series: linear
interpolation lands exactly on `a + d * (99 q)`. -/
theorem npQuantile_uniform (a d q : ℚ) (hd : 0 ≤ d) (h0 : 0 ≤ q) (h1 : q ≤ 1) :
    npQuantile (uniformSeries a d) q = a + d * (99 * q) := by
  simp only [npQuantile]
  rw [List.Sorted.insertionSort_eq (uniformSeries_sorted a d hd)]
  rw [show (((uniformSeries a d).length : ℚ) - 1) = 99 from by
    rw [uniformSeries_length]; norm_num]
  have hh0 : (0 : ℚ) ≤ q * 99 := by nlinarith
  have hh99 : q * 99 ≤ 99 := by nlinarith
  set h : ℚ := q * 99 with hdefh
  have hfl0 : 0 ≤ ⌊h⌋ := Int.floor_nonneg.mpr hh0
  have hfl99 : ⌊h⌋ ≤ 99 := by
    have := Int.floor_le_floor (α := ℚ) (show h ≤ ((99 : ℤ) : ℚ) by exact_mod_cast hh99)
    rwa [Int.floor_intCast] at this
  have hcl0 : 0 ≤ ⌈h⌉ := Int.ceil_nonneg hh0
  have hcl99 : ⌈h⌉ ≤ 99 := Int.ceil_le.mpr (by exact_mod_cast hh99)
  have hjlt : ⌊h⌋.toNat < 100 := by omega
  have hj1lt : ⌈h⌉.toNat < 100 := by omega
  have hjb : ⌊h⌋.toNat < (uniformSeries a d).length := by
    rw [uniformSeries_length]
    omega
  have hj1b : ⌈h⌉.toNat < (uniformSeries a d).length := by
    rw [uniformSeries_length]
    omega
  have hgd1 : (uniformSeries a d).getD ⌊h⌋.toNat 0 = a + d * (⌊h⌋.toNat : ℚ) := by
    rw [List.getD_eq_getElem?_getD, List.getElem?_eq_getElem hjb]
    rw [uniformSeries_getElem a d _ hjb]
    rfl
  have hgd2 : (uniformSeries a d).getD ⌈h⌉.toNat ((uniformSeries a d).getD ⌊h⌋.toNat 0)
      = a + d * (⌈h⌉.toNat : ℚ) := by
    rw [List.getD_eq_getElem?_getD, List.getElem?_eq_getElem hj1b]
    rw [uniformSeries_getElem a d _ hj1b]
    rfl
  rw [hgd2, hgd1]
  have htn1 : ((⌊h⌋.toNat : ℕ) : ℚ) = ((⌊h⌋ : ℤ) : ℚ) := by
    exact_mod_cast congrArg (fun z : ℤ => (z : ℚ)) (Int.toNat_of_nonneg hfl0)
  have htn2 : ((⌈h⌉.toNat : ℕ) : ℚ) = ((⌈h⌉ : ℤ) : ℚ) := by
    exact_mod_cast congrArg (fun z : ℤ => (z : ℚ)) (Int.toNat_of_nonneg hcl0)
  rw [htn1, htn2]
  have hkey : (h - ((⌊h⌋ : ℤ) : ℚ)) * (((⌈h⌉ : ℤ) : ℚ) - ((⌊h⌋ : ℤ) : ℚ))
      = h - ((⌊h⌋ : ℤ) : ℚ) := by
    by_cases hfr : Int.fract h = 0
    · have hz : h - ((⌊h⌋ : ℤ) : ℚ) = 0 := hfr
      rw [hz]
      ring
    · have hceil : ⌈h⌉ = ⌊h⌋ + 1 := by
        refine le_antisymm (Int.ceil_le_floor_add_one h) ?_
        have hlt : ((⌊h⌋ : ℤ) : ℚ) < h := by
          rcases lt_or_eq_of_le (Int.floor_le h) with hlt | heq
          · exact hlt
          · exact absurd (show Int.fract h = 0 from by rw [Int.fract, heq]; ring) hfr
        have hltc : ((⌊h⌋ : ℤ) : ℚ) < ((⌈h⌉ : ℤ) : ℚ) := lt_of_lt_of_le hlt (Int.le_ceil h)
        have : ⌊h⌋ < ⌈h⌉ := by exact_mod_cast hltc
        omega
      rw [hceil]
      push_cast
      ring
  have hfinal : a + d * ((⌊h⌋ : ℤ) : ℚ)
      + (h - ((⌊h⌋ : ℤ) : ℚ)) * (a + d * ((⌈h⌉ : ℤ) : ℚ) - (a + d * ((⌊h⌋ : ℤ) : ℚ)))
      = a + d * h := by
    have hexp : a + d * ((⌈h⌉ : ℤ) : ℚ) - (a + d * ((⌊h⌋ : ℤ) : ℚ))
        = d * (((⌈h⌉ : ℤ) : ℚ) - ((⌊h⌋ : ℤ) : ℚ)) := by ring
    rw [hexp]
    calc a + d * ((⌊h⌋ : ℤ) : ℚ)
          + (h - ((⌊h⌋ : ℤ) : ℚ)) * (d * (((⌈h⌉ : ℤ) : ℚ) - ((⌊h⌋ : ℤ) : ℚ)))
        = a + d * ((⌊h⌋ : ℤ) : ℚ)
          + d * ((h - ((⌊h⌋ : ℤ) : ℚ)) * (((⌈h⌉ : ℤ) : ℚ) - ((⌊h⌋ : ℤ) : ℚ))) := by ring
      _ = a + d * ((⌊h⌋ : ℤ) : ℚ) + d * (h - ((⌊h⌋ : ℤ) : ℚ)) := by rw [hkey]
      _ = a + d * h := by ring
  rw [hfinal, hdefh]
  ring

theorem qsAssignStep_length (s : List (Option ℚ)) (b : QBucket)
    (out : List (Option QBucket)) :
    (qsAssignStep s b out).length = min s.length out.length := by
  unfold qsAssignStep
  rw [List.length_zipWith]

theorem qsAssign_aux_length (s : List (Option ℚ)) (bs : List QBucket)
    (out : List (Option QBucket)) (hout : out.length = s.length) :
    (bs.foldl (fun out b => qsAssignStep s b out) out).length = s.length := by
  induction bs generalizing out with
  | nil => simpa using hout
  | cons b bs ih =>
    rw [List.foldl_cons]
    exact ih _ (by rw [qsAssignStep_length, hout, Nat.min_self])

theorem qsAssign_length (s : List (Option ℚ)) (bs : List QBucket) :
    (qsAssign s bs).length = s.length := by
  unfold qsAssign
  exact qsAssign_aux_length s bs _ (by rw [List.length_map])

/-- The `np.where` overwrite loop is a last-match semantics: a non-NaN
position ends up labelled with the LAST bucket of the list whose test it
passes (`none` if it passes none). -/
theorem qsAssign_getD_last (s : List (Option ℚ)) (bs : List QBucket)
    (k : ℕ) (x : ℚ) (hk : k < s.length) (hs : s.getD k none = some x) :
    (qsAssign s bs).getD k none = (bs.filter (fun b => memQB x b)).getLast? := by
  have hsk : s[k] = some x := by
    rw [List.getD_eq_getElem?_getD, List.getElem?_eq_getElem hk] at hs
    simpa using hs
  induction bs using List.reverseRecOn with
  | nil =>
    show ((s.map fun _ => (none : Option QBucket)).getD k none) = _
    rw [List.getD_eq_getElem?_getD,
      List.getElem?_eq_getElem (by rw [List.length_map]; exact hk)]
    simp
  | append_singleton bs b ih =>
    have hfold : qsAssign s (bs ++ [b]) = qsAssignStep s b (qsAssign s bs) := by
      unfold qsAssign
      rw [List.foldl_append]
      rfl
    rw [hfold]
    have hlen : (qsAssign s bs).length = s.length := qsAssign_length s bs
    have hkb : k < (qsAssign s bs).length := by
      rw [hlen]
      exact hk
    have hgd : (qsAssign s bs).getD k none = (qsAssign s bs)[k] := by
      rw [List.getD_eq_getElem?_getD, List.getElem?_eq_getElem hkb]
      rfl
    have hstep : (qsAssignStep s b (qsAssign s bs)).getD k none
        = if memQB x b then some b else (qsAssign s bs).getD k none := by
      unfold qsAssignStep
      rw [List.getD_eq_getElem?_getD,
        List.getElem?_eq_getElem
          (by rw [List.length_zipWith, hlen, Nat.min_self]; exact hk)]
      rw [Option.getD_some, List.getElem_zipWith, hsk, hgd]
    rw [hstep, ih]
    rw [List.filter_append, List.getLast?_append]
    rcases Bool.eq_false_or_eq_true (memQB x b) with hb | hb
    · rw [hb]
      simp [List.filter, hb]
    · rw [hb]
      simp [List.filter, hb]

theorem filter_beq_singleton (l : List ℕ) (a : ℕ) (hnd : l.Nodup) (ha : a ∈ l) :
    l.filter (fun x => decide (x = a)) = [a] := by
  induction l with
  | nil => cases ha
  | cons b t ih =>
    rw [List.filter_cons]
    rcases List.mem_cons.mp ha with rfl | hat
    · rw [if_pos (by simp)]
      have hnotin : a ∉ t := (List.nodup_cons.mp hnd).1
      have hnil : t.filter (fun x => decide (x = a)) = [] := by
        rw [List.filter_eq_nil_iff]
        intro x hx
        simp only [decide_eq_true_eq]
        rintro rfl
        exact hnotin hx
      rw [hnil]
    · have hba : b ≠ a := by
        rintro rfl
        exact (List.nodup_cons.mp hnd).1 hat
      rw [if_neg (by simpa using hba)]
      exact ih (List.nodup_cons.mp hnd).2 hat

/-- The bucket list `quantile_split` builds for the 100-point uniform
series with `n = 10`, `signif = 2` (its `mx` argument is the series
maximum `a + d * 99`). -/
def uniformBuckets (a d : ℚ) : List QBucket :=
  quantileBuckets (uniformSeries a d) (a + d * 99) 10 (some 2)

theorem uniformBuckets_length (a d : ℚ) : (uniformBuckets a d).length = 10 := by
  unfold uniformBuckets quantileBuckets
  rw [List.length_map, List.length_range]

theorem uniformBuckets_getD (a d : ℚ) (i : ℕ) (hi : i < 10) :
    (uniformBuckets a d).getD i default
      = quantileBucketAt (uniformSeries a d) (a + d * 99) 10 (some 2) i := by
  unfold uniformBuckets quantileBuckets
  rw [List.getD_eq_getElem?_getD,
    List.getElem?_eq_getElem (by rw [List.length_map, List.length_range]; exact hi)]
  rw [Option.getD_some, List.getElem_map, List.getElem_range]

/-- Boundary fields of the buckets `0 ≤ i ≤ 8` on the uniform series:
lower bound at quantile `i/10`, upper (and upper assignment) bound at
quantile `(i+1)/10`, not right-closed. -/
theorem uniformBucketAt_fields_lt9 (a d : ℚ) (hd : 0 ≤ d) (i : ℕ) (hi : i < 9) :
    (quantileBucketAt (uniformSeries a d) (a + d * 99) 10 (some 2) i).qMin
        = a + d * (99 * ((i : ℚ) / 10))
    ∧ (quantileBucketAt (uniformSeries a d) (a + d * 99) 10 (some 2) i).qMax
        = a + d * (99 * (((i : ℚ) + 1) / 10))
    ∧ (quantileBucketAt (uniformSeries a d) (a + d * 99) 10 (some 2) i).qMaxAdj
        = some (a + d * (99 * (((i : ℚ) + 1) / 10))) := by
  have hi8 : (i : ℚ) ≤ 8 := by exact_mod_cast (by omega : i ≤ 8)
  have hcond : ¬ ((1 : ℚ) ≤ (i : ℚ) / ((10 : ℕ) : ℚ) + 1/10) := by
    rw [show ((10 : ℕ) : ℚ) = (10 : ℚ) from by norm_num]
    intro h
    nlinarith
  have hlast : ¬ (npRound1 ((i : ℚ) / ((10 : ℕ) : ℚ) + 1/10) = 1) := by
    rw [show ((10 : ℕ) : ℚ) = (10 : ℚ) from by norm_num,
      show (i : ℚ) / 10 + 1/10 = (((i + 1 : ℕ)) : ℚ) / 10 from by push_cast; ring,
      npRound1_div10]
    intro h
    rw [div_eq_one_iff_eq (by norm_num)] at h
    have : i + 1 = 10 := by exact_mod_cast h
    omega
  have hq : npQuantile (uniformSeries a d) ((i : ℚ) / ((10 : ℕ) : ℚ) + 1/10)
      = a + d * (99 * (((i : ℚ) + 1) / 10)) := by
    rw [show ((10 : ℕ) : ℚ) = (10 : ℚ) from by norm_num,
      show (i : ℚ) / 10 + 1/10 = ((i : ℚ) + 1) / 10 from by ring]
    refine npQuantile_uniform a d _ hd (by positivity) ?_
    rw [div_le_one (by norm_num)]
    linarith
  refine ⟨?_, ?_, ?_⟩
  · simp only [quantileBucketAt]
    rw [show ((10 : ℕ) : ℚ) = (10 : ℚ) from by norm_num]
    exact npQuantile_uniform a d _ hd (by positivity) (by
      rw [div_le_one (by norm_num)]
      linarith)
  · simp only [quantileBucketAt]
    rw [if_neg hcond, hq]
  · simp only [quantileBucketAt]
    rw [if_neg hlast, if_neg hcond, hq]

/-- Boundary fields of the last bucket (`i = 9`): lower bound at
quantile `9/10`, upper bound the series maximum, assignment bound
`np.inf` (right-closed). -/
theorem uniformBucketAt_fields_9 (a d : ℚ) (hd : 0 ≤ d) :
    (quantileBucketAt (uniformSeries a d) (a + d * 99) 10 (some 2) 9).qMin
        = a + d * (99 * ((9 : ℚ) / 10))
    ∧ (quantileBucketAt (uniformSeries a d) (a + d * 99) 10 (some 2) 9).qMax
        = a + d * 99
    ∧ (quantileBucketAt (uniformSeries a d) (a + d * 99) 10 (some 2) 9).qMaxAdj
        = none := by
  have hcond : (1 : ℚ) ≤ ((9 : ℕ) : ℚ) / ((10 : ℕ) : ℚ) + 1/10 := by norm_num
  have hlast : npRound1 (((9 : ℕ) : ℚ) / ((10 : ℕ) : ℚ) + 1/10) = 1 := by
    rw [show ((9 : ℕ) : ℚ) / ((10 : ℕ) : ℚ) + 1/10 = ((10 : ℕ) : ℚ) / 10 from by
      push_cast; ring]
    rw [npRound1_div10]
    push_cast
    norm_num
  refine ⟨?_, ?_, ?_⟩
  · simp only [quantileBucketAt]
    rw [show ((9 : ℕ) : ℚ) / ((10 : ℕ) : ℚ) = (9 : ℚ) / 10 from by push_cast; norm_num]
    exact npQuantile_uniform a d _ hd (by norm_num) (by norm_num)
  · simp only [quantileBucketAt]
    rw [if_pos hcond]
  · simp only [quantileBucketAt]
    rw [if_pos hlast]

/-- The lower boundary of every bucket `i < 10` on the uniform series
sits at quantile `i/10`. -/
theorem uniformBucketAt_qMin (a d : ℚ) (hd : 0 ≤ d) (i : ℕ) (hi : i < 10) :
    (quantileBucketAt (uniformSeries a d) (a + d * 99) 10 (some 2) i).qMin
      = a + d * (99 * ((i : ℚ) / 10)) := by
  simp only [quantileBucketAt]
  rw [show ((10 : ℕ) : ℚ) = (10 : ℚ) from by norm_num]
  refine npQuantile_uniform a d _ hd (by positivity) ?_
  rw [div_le_one (by norm_num)]
  have : (i : ℚ) ≤ 9 := by exact_mod_cast (by omega : i ≤ 9)
  linarith

/-- Membership arithmetic: on the uniform series, the element `a + d k`
passes bucket `i`'s test exactly when `i = min (10 k / 99) 9`. -/
theorem memQB_uniformAt (a d : ℚ) (hd : 0 < d) (k i : ℕ)
    (hk : k < 100) (hi : i < 10) :
    (memQB (a + d * (k : ℚ))
        (quantileBucketAt (uniformSeries a d) (a + d * 99) 10 (some 2) i) = true)
      ↔ i = min (10 * k / 99) 9 := by
  have hle : ∀ u v : ℚ, a + d * u ≤ a + d * v ↔ u ≤ v := by
    intro u v
    constructor <;> intro h <;> nlinarith
  have hlt : ∀ u v : ℚ, a + d * u < a + d * v ↔ u < v := by
    intro u v
    constructor <;> intro h <;> nlinarith
  by_cases hi9 : i = 9
  · subst hi9
    obtain ⟨hqmin, _, hadj⟩ := uniformBucketAt_fields_9 a d hd.le
    simp only [memQB, hqmin, hadj, Bool.and_true, decide_eq_true_eq]
    rw [hle]
    constructor
    · intro h
      have h' : ((891 : ℕ) : ℚ) ≤ ((10 * k : ℕ) : ℚ) := by push_cast; nlinarith
      have h'' : (891 : ℕ) ≤ 10 * k := by exact_mod_cast h'
      omega
    · intro h
      have h9 : (891 : ℕ) ≤ 10 * k := by omega
      have h' : ((891 : ℕ) : ℚ) ≤ ((10 * k : ℕ) : ℚ) := by exact_mod_cast h9
      push_cast at h'
      nlinarith
  · obtain ⟨hqmin, _, hadj⟩ := uniformBucketAt_fields_lt9 a d hd.le i (by omega)
    simp only [memQB, hqmin, hadj, Bool.and_eq_true, decide_eq_true_eq]
    rw [hle, hlt]
    constructor
    · rintro ⟨h1, h2⟩
      have h1' : (99 * i : ℕ) ≤ 10 * k := by
        have : ((99 * i : ℕ) : ℚ) ≤ ((10 * k : ℕ) : ℚ) := by push_cast; nlinarith
        exact_mod_cast this
      have h2' : 10 * k < 99 * (i + 1) := by
        have : ((10 * k : ℕ) : ℚ) < ((99 * (i + 1) : ℕ) : ℚ) := by push_cast; nlinarith
        exact_mod_cast this
      omega
    · intro h
      have h1' : 99 * i ≤ 10 * k := by omega
      have h2' : 10 * k < 99 * (i + 1) := by omega
      constructor
      · have h1q : ((99 * i : ℕ) : ℚ) ≤ ((10 * k : ℕ) : ℚ) := by exact_mod_cast h1'
        push_cast at h1q
        nlinarith
      · have h2q : ((10 * k : ℕ) : ℚ) < ((99 * (i + 1) : ℕ) : ℚ) := by exact_mod_cast h2'
        push_cast at h2q
        nlinarith

/-- C1: splitting the series of 100 uniformly spaced values `a + d k`
(`d > 0`; the two-significant-digit rounding of the source is assumed
exact on the series values) into `n = 10` quantile buckets assigns
every element the label of exactly one of the 10 buckets (namely bucket
`min (10 k / 99) 9` for element `k`), the bucket tests are pairwise
disjoint, each bucket's upper boundary is the next bucket's lower
boundary, and the first lower / last upper boundary are the series
minimum / maximum, so the buckets cover the full range. -/
theorem quantile_split_uniform100 (a d : ℚ) (hd : 0 < d)
    (hround : ∀ x ∈ uniformSeries a d, round_signif x 2 = x) :
    ∃ out : List (Option QBucket),
      quantile_split ((uniformSeries a d).map some) 10 (some 2) false
          = .cat out
      ∧ (uniformBuckets a d).length = 10
      ∧ out.length = 100
      ∧ (∀ k, k < 100 →
          out.getD k none
            = some ((uniformBuckets a d).getD (min (10 * k / 99) 9) default))
      ∧ (∀ k : ℕ, k < 100 → ∀ i, i < 10 →
          (memQB (a + d * (k : ℚ)) ((uniformBuckets a d).getD i default) = true
            ↔ i = min (10 * k / 99) 9))
      ∧ (∀ x : ℚ, ∀ i, i < 10 → ∀ j, j < 10 →
          memQB x ((uniformBuckets a d).getD i default) = true →
          memQB x ((uniformBuckets a d).getD j default) = true → i = j)
      ∧ (∀ i, i + 1 < 10 →
          ((uniformBuckets a d).getD i default).qMax
            = ((uniformBuckets a d).getD (i + 1) default).qMin)
      ∧ ((uniformBuckets a d).getD 0 default).qMin = a
      ∧ ((uniformBuckets a d).getD 9 default).qMax = a + d * 99
      ∧ (∀ x ∈ uniformSeries a d,
          ((uniformBuckets a d).getD 0 default).qMin ≤ x
            ∧ x ≤ ((uniformBuckets a d).getD 9 default).qMax) := by
  have hlen : (uniformSeries a d).length = 100 := uniformSeries_length a d
  have hnd : (uniformSeries a d).Nodup := uniformSeries_nodup a d hd
  have hndm : ((uniformSeries a d).map some).Nodup :=
    hnd.map (Option.some_injective ℚ)
  have hguard : ¬ (((uniformSeries a d).map some).dedup.length ≤ 10) := by
    rw [List.Nodup.dedup hndm, List.length_map, hlen]
    omega
  have hs3 : ((uniformSeries a d).map some).map
      (Option.map (fun x => round_signif x 2)) = (uniformSeries a d).map some := by
    rw [List.map_map]
    refine List.map_congr_left ?_
    intro x hx
    simp only [Function.comp_apply, Option.map_some']
    rw [hround x hx]
  have hmax : (uniformSeries a d).max? = some (a + d * 99) :=
    uniformSeries_max a d hd.le
  have hsplit : quantile_split ((uniformSeries a d).map some) 10 (some 2) false
      = .cat (qsAssign ((uniformSeries a d).map some) (uniformBuckets a d)) := by
    simp only [quantile_split]
    rw [if_neg hguard]
    rw [if_neg Bool.false_ne_true]
    rw [hs3, valids_map_some, hmax, Option.getD_some]
    rfl
  refine ⟨qsAssign ((uniformSeries a d).map some) (uniformBuckets a d), hsplit,
    uniformBuckets_length a d, ?_, ?_, ?_, ?_, ?_, ?_, ?_, ?_⟩
  · rw [qsAssign_length, List.length_map, hlen]
  · intro k hk
    have hklt : k < ((uniformSeries a d).map some).length := by
      rw [List.length_map, hlen]
      omega
    have hku : k < (uniformSeries a d).length := by
      rw [hlen]
      omega
    have hxk : ((uniformSeries a d).map some).getD k none
        = some (a + d * (k : ℚ)) := by
      rw [List.getD_eq_getElem?_getD, List.getElem?_eq_getElem hklt,
        Option.getD_some, List.getElem_map]
      rw [uniformSeries_getElem a d k hku]
    rw [qsAssign_getD_last _ _ k (a + d * (k : ℚ)) hklt hxk]
    have hι : min (10 * k / 99) 9 < 10 := by omega
    have hfilter : (uniformBuckets a d).filter (fun b => memQB (a + d * (k : ℚ)) b)
        = [quantileBucketAt (uniformSeries a d) (a + d * 99) 10 (some 2)
            (min (10 * k / 99) 9)] := by
      unfold uniformBuckets quantileBuckets
      rw [List.filter_map]
      have hcong : (List.range 10).filter
          ((fun b => memQB (a + d * (k : ℚ)) b)
            ∘ quantileBucketAt (uniformSeries a d) (a + d * 99) 10 (some 2))
          = (List.range 10).filter (fun i => decide (i = min (10 * k / 99) 9)) := by
        refine List.filter_congr ?_
        intro i hi
        rw [List.mem_range] at hi
        simp only [Function.comp_apply]
        rcases Bool.eq_false_or_eq_true
            (memQB (a + d * (k : ℚ))
              (quantileBucketAt (uniformSeries a d) (a + d * 99) 10 (some 2) i)) with
          hb | hb
        · rw [hb]
          symm
          rw [decide_eq_true_eq]
          exact (memQB_uniformAt a d hd k i hk hi).mp hb
        · rw [hb]
          symm
          rw [decide_eq_false_iff_not]
          intro he
          have hmt := (memQB_uniformAt a d hd k i hk hi).mpr he
          rw [hb] at hmt
          exact absurd hmt Bool.false_ne_true
      rw [hcong, filter_beq_singleton _ _ (List.nodup_range 10)
        (List.mem_range.mpr hι)]
      rfl
    rw [hfilter, uniformBuckets_getD a d _ hι]
    rfl
  · intro k hk i hi
    rw [uniformBuckets_getD a d i hi]
    exact memQB_uniformAt a d hd k i hk hi
  · intro x i hi j hj hmi hmj
    have key : ∀ i j, i < j → j < 10 →
        memQB x ((uniformBuckets a d).getD i default) = true →
        memQB x ((uniformBuckets a d).getD j default) = true → False := by
      intro i j hij hj10 hmi hmj
      obtain ⟨hqmin_i, hqmax_i, hadj_i⟩ :=
        uniformBucketAt_fields_lt9 a d hd.le i (by omega)
      rw [uniformBuckets_getD a d i (by omega)] at hmi
      simp only [memQB, hqmin_i, hadj_i, Bool.and_eq_true, decide_eq_true_eq] at hmi
      have hxlt : x < a + d * (99 * (((i : ℚ) + 1) / 10)) := hmi.2
      rw [uniformBuckets_getD a d j (by omega)] at hmj
      have hjmin : a + d * (99 * ((j : ℚ) / 10)) ≤ x := by
        simp only [memQB, Bool.and_eq_true, decide_eq_true_eq] at hmj
        have hmj1 := hmj.1
        rwa [uniformBucketAt_qMin a d hd.le j (by omega)] at hmj1
      have hij1 : (i : ℚ) + 1 ≤ (j : ℚ) := by exact_mod_cast hij
      have hmono : d * (99 * (((i : ℚ) + 1) / 10)) ≤ d * (99 * ((j : ℚ) / 10)) := by
        refine mul_le_mul_of_nonneg_left ?_ hd.le
        linarith
      linarith
    rcases lt_trichotomy i j with h | h | h
    · exact (key i j h hj hmi hmj).elim
    · exact h
    · exact (key j i h hi hmj hmi).elim
  · intro i hi
    rw [uniformBuckets_getD a d i (by omega), uniformBuckets_getD a d (i + 1) (by omega)]
    obtain ⟨_, hqmax_i, _⟩ := uniformBucketAt_fields_lt9 a d hd.le i (by omega)
    rw [hqmax_i, uniformBucketAt_qMin a d hd.le (i + 1) (by omega)]
    push_cast
    ring
  · rw [uniformBuckets_getD a d 0 (by omega), uniformBucketAt_qMin a d hd.le 0 (by omega)]
    norm_num
  · rw [uniformBuckets_getD a d 9 (by omega)]
    exact (uniformBucketAt_fields_9 a d hd.le).2.1
  · intro x hx
    rw [uniformSeries] at hx
    obtain ⟨k, hk, rfl⟩ := List.mem_map.mp hx
    rw [List.mem_range] at hk
    constructor
    · rw [uniformBuckets_getD a d 0 (by omega), uniformBucketAt_qMin a d hd.le 0 (by omega)]
      have hk0 : (0 : ℚ) ≤ d * (k : ℚ) := by positivity
      push_cast
      norm_num
      linarith
    · rw [uniformBuckets_getD a d 9 (by omega)]
      rw [(uniformBucketAt_fields_9 a d hd.le).2.1]
      have hk99 : (k : ℚ) ≤ 99 := by exact_mod_cast (by omega : k ≤ 99)
      have hmono : d * (k : ℚ) ≤ d * 99 := mul_le_mul_of_nonneg_left hk99 hd.le
      linarith

/-- Witness for C1 at `a = 0`, `d = 1`: the series `0, 1, ..., 99`, on
which two-significant-digit rounding is the identity. -/
theorem quantile_split_uniform100_witness :
    ((0 : ℚ) < 1 ∧ (∀ x ∈ uniformSeries 0 1, round_signif x 2 = x)) ∧
    (∃ out : List (Option QBucket),
      quantile_split ((uniformSeries 0 1).map some) 10 (some 2) false
          = .cat out
      ∧ (uniformBuckets 0 1).length = 10
      ∧ out.length = 100
      ∧ (∀ k, k < 100 →
          out.getD k none
            = some ((uniformBuckets 0 1).getD (min (10 * k / 99) 9) default))
      ∧ (∀ k : ℕ, k < 100 → ∀ i, i < 10 →
          (memQB (0 + 1 * (k : ℚ)) ((uniformBuckets 0 1).getD i default) = true
            ↔ i = min (10 * k / 99) 9))
      ∧ (∀ x : ℚ, ∀ i, i < 10 → ∀ j, j < 10 →
          memQB x ((uniformBuckets 0 1).getD i default) = true →
          memQB x ((uniformBuckets 0 1).getD j default) = true → i = j)
      ∧ (∀ i, i + 1 < 10 →
          ((uniformBuckets 0 1).getD i default).qMax
            = ((uniformBuckets 0 1).getD (i + 1) default).qMin)
      ∧ ((uniformBuckets 0 1).getD 0 default).qMin = 0
      ∧ ((uniformBuckets 0 1).getD 9 default).qMax = 0 + 1 * 99
      ∧ (∀ x ∈ uniformSeries 0 1,
          ((uniformBuckets 0 1).getD 0 default).qMin ≤ x
            ∧ x ≤ ((uniformBuckets 0 1).getD 9 default).qMax)) := by
  have h1 : (0 : ℚ) < 1 := by norm_num
  have h2 : ∀ x ∈ uniformSeries 0 1, round_signif x 2 = x := by
    intro x hx
    rw [uniformSeries] at hx
    obtain ⟨k, hk, rfl⟩ := List.mem_map.mp hx
    rw [List.mem_range] at hk
    rw [show (0 : ℚ) + 1 * (k : ℚ) = (k : ℚ) from by ring]
    exact round_signif_nat_small k hk
  exact ⟨⟨h1, h2⟩, quantile_split_uniform100 0 1 h1 h2⟩

end Hhpy
